import Mathlib

/-!
Verification of the pyrocko Green's-function synthesis engine
(`src/gf/seismosizer.py`, `src/guts_array.py`) against its specification.

The Python source is shallowly embedded: float arithmetic is modelled by
exact arithmetic in a linear ordered field (instantiated at `ℚ` where the
source only uses field and rounding operations, and at `ℝ` where it uses
transcendental functions), numpy arrays by `List`s, fallible code by
`Except`/`Option`.
-/

namespace Pyrocko

/-! ### numpy-style list primitives -/

/-- `num.linspace a b m`: `m` evenly spaced points from `a` to `b` inclusive.
For `m = 1` the result is `[a]` (the step `(b-a)/(m-1)` has a zero
denominator and `x / 0 = 0` in Lean, matching numpy's single-point case);
for `m = 0` it is `[]`. -/
def linspace {α : Type*} [Field α] (a b : α) (m : ℕ) : List α :=
  (List.range m).map (fun i : ℕ => a + (b - a) * (i : α) / ((m : α) - 1))

/-- `num.tile l n`: the list `l` concatenated `n` times. -/
def tile {α : Type*} (l : List α) (n : ℕ) : List α :=
  (List.replicate n l).flatten

/-- `num.repeat l n`: each element of `l` repeated `n` times in place. -/
def nrepeat {α : Type*} (l : List α) (n : ℕ) : List α :=
  l.flatMap (fun x => List.replicate n x)

/-- Adjacent differences `l[1:] - l[:-1]` of a list. -/
def adjDiffs {α : Type*} [Sub α] (l : List α) : List α :=
  (l.zip l.tail).map (fun p => p.2 - p.1)

@[simp] theorem linspace_zero {α : Type*} [Field α] (a b : α) : linspace a b 0 = [] := rfl

@[simp] theorem linspace_one {α : Type*} [Field α] (a b : α) : linspace a b 1 = [a] := by
  simp [linspace]

theorem linspace_length {α : Type*} [Field α] (a b : α) (m : ℕ) :
    (linspace a b m).length = m := by
  simp [linspace]

theorem adjDiffs_sum {α : Type*} [AddCommGroup α] (l : List α) :
    (adjDiffs l).sum = l.getLastD 0 - l.headD 0 := by
  induction l with
  | nil => simp [adjDiffs]
  | cons a t ih =>
    cases t with
    | nil => simp [adjDiffs]
    | cons b t' =>
      have h : adjDiffs (a :: b :: t') = (b - a) :: adjDiffs (b :: t') := rfl
      rw [h, List.sum_cons, ih]
      have h2 : (a :: b :: t').getLastD 0 = (b :: t').getLastD 0 := by
        simp [List.getLastD_eq_getLast?]
      rw [h2]
      simp only [List.headD_cons]
      abel

theorem tile_one {α : Type*} (l : List α) : tile l 1 = l := by
  simp [tile]

theorem tile_length {α : Type*} (l : List α) (n : ℕ) :
    (tile l n).length = n * l.length := by
  induction n with
  | zero => simp [tile]
  | succ k ih =>
    simp only [tile, List.replicate_succ, List.flatten_cons, List.length_append]
    rw [show (List.replicate k l).flatten = tile l k from rfl, ih]
    ring

/-! ### sshift (seismosizer.py lines 605-619)

Distributes a sub-sample time shift `tshift` over two neighbouring samples.
`times[0]` is modelled totally as `times.headD 0` (numpy would raise on an
empty array; all callers pass nonempty arrays). -/

def sshift {α : Type*} [LinearOrderedField α] [FloorRing α]
    (times amplitudes : List α) (tshift deltat : α) : List α × List α :=
  let t0 := (⌊tshift / deltat⌋ : α) * deltat
  let t1 := (⌈tshift / deltat⌉ : α) * deltat
  if t0 = t1 then (times, amplitudes)
  else
    let amplitudes2 := List.zipWith (· + ·)
      (amplitudes.map (fun a => (t1 - tshift) / deltat * a) ++ [0])
      (0 :: amplitudes.map (fun a => (tshift - t0) / deltat * a))
    let times2 := (List.range (times.length + 1)).map
      (fun i : ℕ => (i : α) * deltat + times.headD 0 + t0)
    (times2, amplitudes2)

/-! ### Rounding

Python 2's builtin `round` (used in the STF `discretize_t` methods) rounds
half away from zero. -/

/-- Python 2 `round`: nearest integer, halves away from zero. -/
def pyround {α : Type*} [LinearOrderedField α] [FloorRing α] (x : α) : ℤ :=
  if 0 ≤ x then ⌊x + 1/2⌋ else -⌊-x + 1/2⌋

theorem pyround_sub_le {α : Type*} [LinearOrderedField α] [FloorRing α] (x : α) :
    |(pyround x : α) - x| ≤ 1/2 := by
  unfold pyround
  split
  · rw [abs_le]
    constructor
    · have := Int.lt_floor_add_one (x + 1/2)
      push_cast at this ⊢
      linarith
    · have := Int.floor_le (x + 1/2)
      linarith
  · rw [abs_le]
    push_cast
    constructor
    · have := Int.floor_le (-x + 1/2)
      linarith
    · have := Int.lt_floor_add_one (-x + 1/2)
      linarith

theorem pyround_mono {α : Type*} [LinearOrderedField α] [FloorRing α] :
    Monotone (pyround (α := α)) := by
  intro x y hxy
  unfold pyround
  split <;> split
  · exact Int.floor_le_floor (by linarith)
  · rename_i h0x h0y
    exact absurd (le_trans h0x hxy) h0y
  · rename_i h0x h0y
    have hx1 : (0:ℤ) ≤ ⌊-x + 1/2⌋ := Int.le_floor.2 (by push_cast; linarith)
    have hy1 : (0:ℤ) ≤ ⌊y + 1/2⌋ := Int.le_floor.2 (by push_cast; linarith)
    omega
  · have : (⌊-y + 1/2⌋ : ℤ) ≤ ⌊-x + 1/2⌋ := Int.floor_le_floor (by linarith)
    omega

/-! ### Piecewise-linear integration -/

/-- Modelled from the spec: `pyrocko.util.plf_integrate_piecewise` lives in
`util.py`, which is not under `src/`.  The STF contract in the spec is that
the discrete amplitudes are the exact integrals of the source-time function
(a piecewise linear function through breakpoints `(t, f)`) over the cells of
`t_edges`.  `plfSegCum t0 t1 f0 f1 x` is the exact cumulative integral of
the single linear segment from `(t0, f0)` to `(t1, f1)` up to abscissa `x`
(zero-width segments contribute zero: `w = 0` and `0 / 0 = 0`). -/
def plfSegCum {α : Type*} [LinearOrderedField α] (t0 t1 f0 f1 x : α) : α :=
  let u := max t0 (min x t1)
  let w := u - t0
  w * f0 + w ^ 2 * (f1 - f0) / (2 * (t1 - t0))

/-- Modelled from the spec: cumulative integral of the piecewise linear
function through breakpoints `(t, f)` up to abscissa `x`. -/
def plfCum {α : Type*} [LinearOrderedField α] : List α → List α → α → α
  | t0 :: t1 :: ts, f0 :: f1 :: fs, x =>
      plfSegCum t0 t1 f0 f1 x + plfCum (t1 :: ts) (f1 :: fs) x
  | _, _, _ => 0

/-- Modelled from the spec: `util.plf_integrate_piecewise(t_edges, t, f)`
returns the integral of the piecewise linear function `(t, f)` over each
cell `[t_edges[i], t_edges[i+1])`. -/
def plf_integrate_piecewise {α : Type*} [LinearOrderedField α]
    (t_edges t f : List α) : List α :=
  adjDiffs (t_edges.map (plfCum t f))

/-! ### Source-time functions (seismosizer.py lines 563-600, 647-793)

Each Python STF class is embedded as a cluster of functions carrying the
instance attributes as arguments.  `float` counts that are exact integers in
the source (`nt = (tmax - tmin)/deltat + 1` where `tmax - tmin` is an exact
integer multiple of `deltat`) are embedded as the corresponding natural
number `nt = pyround(tmax_stf/deltat) - pyround(tmin_stf/deltat) + 1`. -/

/-- `STF.discretize_t` (the base class, a unit pulse, lines 588-596). -/
def STFBase.discretize_t {α : Type*} [LinearOrderedField α] [FloorRing α]
    (deltat tref : α) : List α × List α :=
  let tl := (⌊tref / deltat⌋ : α) * deltat
  let th := (⌈tref / deltat⌉ : α) * deltat
  if tl = th then ([tl], [1])
  else ([tl, th], [(th - tref) / deltat, (tref - tl) / deltat])

/-- `BoxcarSTF.centroid_time` (line 639). -/
def BoxcarSTF.centroid_time {α : Type*} [LinearOrderedField α]
    (duration anchor tref : α) : α :=
  tref - 1/2 * duration * anchor

/-- `BoxcarSTF.discretize_t` (lines 647-665). -/
def BoxcarSTF.discretize_t {α : Type*} [LinearOrderedField α] [FloorRing α]
    (duration anchor deltat tref : α) : List α × List α :=
  let tmin_stf := tref - duration * (anchor + 1) * (1/2)
  let tmax_stf := tref + duration * (1 - anchor) * (1/2)
  let tmin := (pyround (tmin_stf / deltat) : α) * deltat
  let tmax := (pyround (tmax_stf / deltat) : α) * deltat
  let nt : ℕ := (pyround (tmax_stf / deltat) - pyround (tmin_stf / deltat)).toNat + 1
  let times := linspace tmin tmax nt
  let amplitudes : List α :=
    if 1 < nt then
      let t_edges := linspace (tmin - 1/2 * deltat) (tmax + 1/2 * deltat) (nt + 1)
      let t := [tmin_stf + duration * 0, tmin_stf + duration * 0,
                tmin_stf + duration * 1, tmin_stf + duration * 1]
      let f : List α := [0, 1, 1, 0]
      let amps := plf_integrate_piecewise t_edges t f
      amps.map (fun x => x / amps.sum)
    else List.replicate nt 1
  let tshift := (List.zipWith (· * ·) amplitudes times).sum
    - BoxcarSTF.centroid_time duration anchor tref
  sshift times amplitudes (-tshift) deltat

/-- `TriangularSTF.centroid_ratio` (lines 697-701). -/
def TriangularSTF.centroid_ratio {α : Type*} [LinearOrderedField α] (peak_ratio : α) : α :=
  peak_ratio + ((1 - peak_ratio) ^ 2 / 3 - peak_ratio ^ 2 / 3) / (peak_ratio + (1 - peak_ratio))

/-- `TriangularSTF.tminmax_stf` (lines 724-734). -/
def TriangularSTF.tminmax_stf {α : Type*} [LinearOrderedField α]
    (duration peak_ratio anchor tref : α) : α × α :=
  let ca := TriangularSTF.centroid_ratio peak_ratio
  let cb := 1 - ca
  if anchor ≤ 0 then
    let tmin_stf := tref - ca * duration * (anchor + 1)
    (tmin_stf, tmin_stf + duration)
  else
    let tmax_stf := tref + cb * duration * (1 - anchor)
    (tmax_stf - duration, tmax_stf)

/-- `TriangularSTF.discretize_t` (lines 736-752). -/
def TriangularSTF.discretize_t {α : Type*} [LinearOrderedField α] [FloorRing α]
    (duration peak_ratio anchor deltat tref : α) : List α × List α :=
  let tmm := TriangularSTF.tminmax_stf duration peak_ratio anchor tref
  let tmin_stf := tmm.1
  let tmax_stf := tmm.2
  let tmin := (pyround (tmin_stf / deltat) : α) * deltat
  let tmax := (pyround (tmax_stf / deltat) : α) * deltat
  let nt : ℕ := (pyround (tmax_stf / deltat) - pyround (tmin_stf / deltat)).toNat + 1
  let amplitudes : List α :=
    if 1 < nt then
      let t_edges := linspace (tmin - 1/2 * deltat) (tmax + 1/2 * deltat) (nt + 1)
      let t := [tmin_stf + duration * 0, tmin_stf + duration * peak_ratio,
                tmin_stf + duration * 1]
      let f : List α := [0, 1, 0]
      let amps := plf_integrate_piecewise t_edges t f
      amps.map (fun x => x / amps.sum)
    else [1]
  (linspace tmin tmax nt, amplitudes)

/-- `HalfSinusoidSTF.discretize_t` (lines 784-793). -/
noncomputable def HalfSinusoidSTF.discretize_t (duration anchor deltat tref : ℝ) :
    List ℝ × List ℝ :=
  let tmin_stf := tref - duration * (anchor + 1) * (1/2)
  let tmax_stf := tref + duration * (1 - anchor) * (1/2)
  let tmin := (pyround (tmin_stf / deltat) : ℝ) * deltat
  let tmax := (pyround (tmax_stf / deltat) : ℝ) * deltat
  let nt : ℕ := (pyround (tmax_stf / deltat) - pyround (tmin_stf / deltat)).toNat + 1
  let amplitudes : List ℝ :=
    if 1 < nt then
      let t_edges := (linspace (tmin - 1/2 * deltat) (tmax + 1/2 * deltat) (nt + 1)).map
        (fun te => max tmin_stf (min tmax_stf te))
      let fint := t_edges.map (fun te => -Real.cos ((te - tmin_stf) * (Real.pi / duration)))
      let amps := adjDiffs fint
      amps.map (fun x => x / amps.sum)
    else [1]
  (linspace tmin tmax nt, amplitudes)

/-! ### The STF hierarchy as a tagged variant, and RingfaultSource -/

/-- The STF class hierarchy as a tagged variant: unit pulse (the base class
`STF`, also `g_unit_pulse`), `BoxcarSTF`, `TriangularSTF`,
`HalfSinusoidSTF`. -/
inductive STF where
  | unitPulse : STF
  | boxcar (duration anchor : ℝ) : STF
  | triangular (duration peak_ratio anchor : ℝ) : STF
  | halfSinusoid (duration anchor : ℝ) : STF

/-- Dispatch of `discretize_t` over the STF variants. -/
noncomputable def STF.discretize_t : STF → ℝ → ℝ → List ℝ × List ℝ
  | .unitPulse, deltat, tref => STFBase.discretize_t deltat tref
  | .boxcar d a, deltat, tref => BoxcarSTF.discretize_t d a deltat tref
  | .triangular d p a, deltat, tref => TriangularSTF.discretize_t d p a deltat tref
  | .halfSinusoid d a, deltat, tref => HalfSinusoidSTF.discretize_t d a deltat tref

/-- `base_key` of each STF class (lines 598-600, 667-668, 754-755, 795-796):
the tuple of parameter fields plus the class tag (`type(self)`). -/
def STF.base_key : STF → List ℝ × ℕ
  | .unitPulse => ([], 0)
  | .boxcar d a => ([d, a], 1)
  | .triangular d p a => ([d, p, a], 2)
  | .halfSinusoid d a => ([d, a], 3)

/-- The fields of `RingfaultSource` (lines 1656-1738), including those
inherited from `meta.Location`, `Source` and `SourceWithMagnitude`, with the
class defaults.  `stf_mode_pre` models `stf_mode == 'pre'` (default
`'post'`). -/
structure RingfaultSource where
  lat : ℝ := 0
  lon : ℝ := 0
  north_shift : ℝ := 0
  east_shift : ℝ := 0
  depth : ℝ := 0
  time : ℝ := 0
  stf : Option STF := none
  stf_mode_pre : Bool := false
  magnitude : ℝ := 6
  diameter : ℝ := 1
  sign : ℝ := 1
  strike : ℝ := 0
  dip : ℝ := 0
  npointsources : ℕ := 360

/-- `Source.effective_stf_pre` (lines 922-937): the source's STF if one is
set and `stf_mode == 'pre'`, else `g_unit_pulse`. -/
def RingfaultSource.effective_stf_pre (s : RingfaultSource) : STF :=
  match s.stf, s.stf_mode_pre with
  | some st, true => st
  | _, _ => STF.unitPulse

/-- `RingfaultSource.base_key` (lines 1687-1689), which extends
`Source.base_key` (lines 871-888):
`(depth, lat, north_shift, lon, east_shift, type(self))
 + effective_stf_pre().base_key() + (strike, dip, diameter)`.
`type(self)` is equal for two sources of the same class and is dropped. -/
def RingfaultSource.base_key (s : RingfaultSource) : List ℝ × (List ℝ × ℕ) × List ℝ :=
  ([s.depth, s.lat, s.north_shift, s.lon, s.east_shift],
   s.effective_stf_pre.base_key,
   [s.strike, s.dip, s.diameter])

/-- The `times` field of the `meta.DiscretizedMTSource` returned by
`RingfaultSource.discretize_basesource` (lines 1691-1738):
`num.tile(times, n)` where `(times, amplitudes) =
effective_stf_pre().discretize_t(store.config.deltat, 0.0)` and
`n = npointsources`. -/
noncomputable def RingfaultSource.discretize_times (s : RingfaultSource) (deltat : ℝ) :
    List ℝ :=
  tile (s.effective_stf_pre.discretize_t deltat 0).1 s.npointsources

/-! ### discretize_rect_source (seismosizer.py lines 128-183) -/

/-- `num.min` of a list (junk default `d` on the empty list, where numpy
would raise). -/
def npmin {α : Type*} [LinearOrder α] (d : α) : List α → α
  | [] => d
  | x :: xs => xs.foldl min x

/-- `discretize_rect_source` (lines 128-183).  The rotation
`mt.euler_to_matrix(dip*d2r, strike*d2r, 0)` lives in
`pyrocko/moment_tensor.py`, which is not under `src/`; following the spec
("rotated by (strike, dip)") it is taken as an abstract map `rot` applied to
each grid point (the code applies `rotmat.T` to each row of `points`).
Counts that are exact integers stored in floats (`nl = 2*ceil(l/m) + 1`) are
embedded as the corresponding naturals.  Returns
`(points2, times2, amplitudes2, dl, dw)`. -/
noncomputable def discretize_rect_source (deltas : List ℝ) (deltat : ℝ)
    (rot : ℝ × ℝ × ℝ → ℝ × ℝ × ℝ) (l w velocity : ℝ) (stf : STF)
    (nucleation_x nucleation_y : Option ℝ) (tref : ℝ) :
    List (ℝ × ℝ × ℝ) × List ℝ × List ℝ × ℝ × ℝ :=
  let mindeltagf := min (npmin 0 deltas) (deltat * velocity)
  let nl : ℕ := (2 * ⌈l / mindeltagf⌉ + 1).toNat
  let nw : ℕ := (2 * ⌈w / mindeltagf⌉ + 1).toNat
  let n := nl * nw
  let dl := l / (nl : ℝ)
  let dw := w / (nw : ℝ)
  let xl := linspace (-(1/2) * (l - dl)) ((1/2) * (l - dl)) nl
  let xw := linspace (-(1/2) * (w - dw)) ((1/2) * (w - dw)) nw
  let points := (tile xl nw).zip (nrepeat xw nl)
  let dists := points.map (fun p =>
    Real.sqrt ((match nucleation_x with | some nx => |nx - p.1| | none => 0) ^ 2
      + (match nucleation_y with | some ny => |ny - p.2| | none => 0) ^ 2))
  let times := dists.map (fun d => d / velocity)
  let points3 := points.map (fun p => rot (p.1, p.2, 0))
  let td := stf.discretize_t deltat tref
  let nt := td.1.length
  let points2 := nrepeat points3 nt
  let times2 := List.zipWith (· + ·) (nrepeat times nt) (tile td.1 n)
  let amplitudes2 := tile td.2 n
  (points2, times2, amplitudes2, dl, dw)

/-! ### Effective durations (claim C3) -/

/-- `BoxcarSTF.factor_duration_to_effective` (line 636): `1.0`. -/
def BoxcarSTF.factor_duration_to_effective : ℝ := 1

/-- `BoxcarSTF.effective_duration` (line 643). -/
def BoxcarSTF.effective_duration (duration : ℝ) : ℝ := duration

/-- `TriangularSTF.factor_duration_to_effective` (lines 690-695). -/
noncomputable def TriangularSTF.factor_duration_to_effective (peak_ratio : ℝ) : ℝ :=
  Real.sqrt ((peak_ratio ^ 2 - peak_ratio + 1) * 2 / 3)

/-- `TriangularSTF.effective_duration` (lines 719-722). -/
noncomputable def TriangularSTF.effective_duration (duration peak_ratio : ℝ) : ℝ :=
  duration * TriangularSTF.factor_duration_to_effective peak_ratio

/-- `HalfSinusoidSTF.factor_duration_to_effective` (lines 773-775). -/
noncomputable def HalfSinusoidSTF.factor_duration_to_effective : ℝ :=
  Real.sqrt ((3 * Real.pi ^ 2 - 24) / Real.pi ^ 2)

/-- `HalfSinusoidSTF.effective_duration` (lines 780-782). -/
noncomputable def HalfSinusoidSTF.effective_duration (duration : ℝ) : ℝ :=
  duration * HalfSinusoidSTF.factor_duration_to_effective

/-- `STF.__init__` / `TriangularSTF.__init__` with `effective_duration=ed`:
sets `duration = ed / factor_duration_to_effective` (lines 569-574, 703-708). -/
noncomputable def BoxcarSTF.duration_of_effective (ed : ℝ) : ℝ :=
  ed / BoxcarSTF.factor_duration_to_effective

/-- `TriangularSTF.__init__` with `effective_duration=ed` (lines 703-708). -/
noncomputable def TriangularSTF.duration_of_effective (ed peak_ratio : ℝ) : ℝ :=
  ed / TriangularSTF.factor_duration_to_effective peak_ratio

/-- `STF.__init__` with `effective_duration=ed` on a `HalfSinusoidSTF`. -/
noncomputable def HalfSinusoidSTF.duration_of_effective (ed : ℝ) : ℝ :=
  ed / HalfSinusoidSTF.factor_duration_to_effective

/-! ### Range spacing (seismosizer.py lines 203-419) -/

/-- The `spacing` choice of `Range` (lines 244-247). -/
inductive Spacing where
  | lin : Spacing
  | log : Spacing
  | symlog : Spacing
deriving DecidableEq

/-- The error raised by `Range.make` on bad grid specifications. -/
inductive RangeError where
  | invalidGridDef : RangeError
deriving DecidableEq

/-- The spacing block of `Range.make` (lines 394-419), for a range that has
resolved to endpoints `start`, `stop` and point count `n`.  `lin` yields
`num.linspace(start, stop, n)`; `log`/`symlog` branch on the signs of the
endpoints, raising `InvalidGridDef` when the interval includes or crosses
zero; `symlog` appends the negated values in reversed order
(`concatenate((nvals[::-1], vals))`).  The trailing `make_relative` call is
the identity for the default `relative = ''`. -/
noncomputable def Range.make_spaced (spacing : Spacing) (start stop : ℝ) (n : ℕ) :
    Except RangeError (List ℝ) :=
  if spacing = Spacing.lin then
    .ok (linspace start stop n)
  else
    if 0 < start ∧ 0 < stop then
      let vals := (linspace (Real.log start) (Real.log stop) n).map Real.exp
      .ok (if spacing = Spacing.symlog
        then (vals.map (fun x => -x)).reverse ++ vals else vals)
    else if start < 0 ∧ stop < 0 then
      let vals := (linspace (Real.log (-start)) (Real.log (-stop)) n).map
        (fun x => -Real.exp x)
      .ok (if spacing = Spacing.symlog
        then (vals.map (fun x => -x)).reverse ++ vals else vals)
    else
      .error RangeError.invalidGridDef

/-! ### Target window clipping (seismosizer.py lines 2498-2538) -/

/-- The span computation of `LocalEngine.base_seismogram` (lines 2503-2510):
`if target.tmin and target.tmax is not None:` sets
`itmin = int(floor(tmin * sample_rate))` and
`nsamples = int(ceil((tmax - tmin) * sample_rate))`, else both stay `None`.
Python truthiness of `target.tmin` (an optional float): `None` and `0.0`
are both falsy, which the embedding renders as the two disequalities. -/
def base_seismogram_window (tmin tmax : Option ℚ) (sample_rate : ℚ) : Option (ℤ × ℤ) :=
  if (tmin ≠ none ∧ tmin ≠ some 0) ∧ tmax ≠ none then
    some (⌊tmin.getD 0 * sample_rate⌋, ⌈(tmax.getD 0 - tmin.getD 0) * sample_rate⌉)
  else
    none

/-! ### Engine store lookup (seismosizer.py lines 2397-2420) -/

/-- Errors of the engine's store lookup. -/
inductive EngineError where
  | duplicateStoreId : EngineError
  | noSuchStore : EngineError
deriving DecidableEq

/-- Association-list lookup, modelling the Python dict
`_id_to_store_dir` keyed by store id. -/
def alookup {I D : Type*} [DecidableEq I] (k : I) : List (I × D) → Option D
  | [] => none
  | (k', d) :: rest => if k' = k then some d else alookup k rest

/-- `LocalEngine._scan_stores` (lines 2397-2407): walk the store
directories in search order (`iter_store_dirs`, abstracted together with
`_get_store_id` into the `(store_dir, store_id)` list `entries`); insert
unseen ids into the map; raise `DuplicateStoreId` when an id reappears with
a different directory. -/
def scan_stores {I D : Type*} [DecidableEq I] [DecidableEq D] :
    List (D × I) → List (I × D) → Except EngineError (List (I × D))
  | [], m => .ok m
  | (store_dir, store_id) :: rest, m =>
    match alookup store_id m with
    | none => scan_stores rest ((store_id, store_dir) :: m)
    | some d =>
      if store_dir = d then scan_stores rest m
      else .error EngineError.duplicateStoreId

/-- `LocalEngine.get_store_dir` (lines 2409-2420): scan when the id is not
cached, then look it up, raising `NoSuchStore` when still absent. -/
def get_store_dir {I D : Type*} [DecidableEq I] [DecidableEq D]
    (entries : List (D × I)) (m : List (I × D)) (store_id : I) :
    Except EngineError D :=
  let scanned : Except EngineError (List (I × D)) :=
    match alookup store_id m with
    | none => scan_stores entries m
    | some _ => .ok m
  match scanned with
  | .error e => .error e
  | .ok mm =>
    match alookup store_id mm with
    | some d => .ok d
    | none => .error EngineError.noSuchStore

/-! ### Trace payload serialization (guts_array.py lines 63-66, 144-151;
seismosizer.py lines 486-491)

A `SeismosizerTrace.data` array is float32 with `serialize_as='base64'` and
`serialize_dtype='<f4'`.  `to_save` runs `val.astype('<f4').tostring()`
(identity `astype`, then concatenation of the 4-byte little-endian encoding
of each sample) followed by base64 encoding; `regularize_extra` runs
`b64decode` followed by `num.fromstring(data, dtype='<f4').astype(float32)`
(identity `astype`).  Float32 values are modelled by their 32-bit words
(naturals `< 2^32`); bytes by naturals `< 256`.  Python 2's
`str.encode('base64')` inserts newlines every 76 characters, which
`b64decode` discards again; this round-trip-neutral line wrapping is
omitted from the model. -/

/-- The base64 alphabet. -/
def b64_alphabet : List Char :=
  ['A', 'B', 'C', 'D', 'E', 'F', 'G', 'H', 'I', 'J', 'K', 'L', 'M',
   'N', 'O', 'P', 'Q', 'R', 'S', 'T', 'U', 'V', 'W', 'X', 'Y', 'Z',
   'a', 'b', 'c', 'd', 'e', 'f', 'g', 'h', 'i', 'j', 'k', 'l', 'm',
   'n', 'o', 'p', 'q', 'r', 's', 't', 'u', 'v', 'w', 'x', 'y', 'z',
   '0', '1', '2', '3', '4', '5', '6', '7', '8', '9', '+', '/']

/-- Symbol for a 6-bit value. -/
def sextet_char (x : ℕ) : Char := b64_alphabet.getD x '?'

/-- Index of a character in a list (first occurrence; junk past the end). -/
def alist_index (c : Char) : List Char → ℕ
  | [] => 0
  | x :: xs => if x = c then 0 else alist_index c xs + 1

/-- 6-bit value of a base64 symbol. -/
def char_sextet (c : Char) : ℕ := alist_index c b64_alphabet

/-- Base64 encoding of a byte sequence (with `=` padding). -/
def b64_encode : List ℕ → List Char
  | b1 :: b2 :: b3 :: rest =>
    sextet_char (b1 / 4) :: sextet_char (b1 % 4 * 16 + b2 / 16)
      :: sextet_char (b2 % 16 * 4 + b3 / 64) :: sextet_char (b3 % 64)
      :: b64_encode rest
  | [b1, b2] =>
    [sextet_char (b1 / 4), sextet_char (b1 % 4 * 16 + b2 / 16),
     sextet_char (b2 % 16 * 4), '=']
  | [b1] => [sextet_char (b1 / 4), sextet_char (b1 % 4 * 16), '=', '=']
  | [] => []

/-- Base64 decoding (`base64.b64decode`). -/
def b64_decode : List Char → List ℕ
  | c1 :: c2 :: c3 :: c4 :: rest =>
    if c4 = '=' then
      if c3 = '=' then [char_sextet c1 * 4 + char_sextet c2 / 16]
      else [char_sextet c1 * 4 + char_sextet c2 / 16,
            char_sextet c2 % 16 * 16 + char_sextet c3 / 4]
    else
      (char_sextet c1 * 4 + char_sextet c2 / 16)
        :: (char_sextet c2 % 16 * 16 + char_sextet c3 / 4)
        :: (char_sextet c3 % 4 * 64 + char_sextet c4)
        :: b64_decode rest
  | _ => []

/-- Little-endian 4-byte encoding of one float32 bit pattern
(one element of `.astype('<f4').tostring()`). -/
def word_to_bytes (x : ℕ) : List ℕ :=
  [x % 256, x / 256 % 256, x / 65536 % 256, x / 16777216 % 256]

/-- `val.astype('<f4').tostring()`: concatenated little-endian words. -/
def words_to_bytes (ws : List ℕ) : List ℕ := ws.flatMap word_to_bytes

/-- `num.fromstring(data, dtype='<f4')`: regroup bytes into words. -/
def bytes_to_words : List ℕ → List ℕ
  | b0 :: b1 :: b2 :: b3 :: rest =>
    (b0 + 256 * b1 + 65536 * b2 + 16777216 * b3) :: bytes_to_words rest
  | _ => []

/-- `Array.__T.to_save` for `SeismosizerTrace.data`
(guts_array.py lines 144-151, base64 branch). -/
def seismosizer_trace_data_to_save (samples : List ℕ) : List Char :=
  b64_encode (words_to_bytes samples)

/-- `Array.__T.regularize_extra` for `SeismosizerTrace.data`
(guts_array.py lines 52-66, base64 branch). -/
def seismosizer_trace_data_regularize (s : List Char) : List ℕ :=
  bytes_to_words (b64_decode s)

/-! ### Request factoring and result reassembly (seismosizer.py
lines 2046-2075, 2270-2323, and 2607-2647)

`base` abstracts `LocalEngine.base_seismogram` (its result for a
source/target pair) and `post` abstracts `LocalEngine._post_process`.
Python dicts keyed by object identity (`source_index`, `target_index`,
`subsources_map`) are modelled with list indices, which matches the code
when the request lists hold pairwise distinct objects (hypothesis `Nodup`
in the theorem). -/

/-- `Request.subsources_map` / `subtargets_map` (lines 2046-2060) composed
with the `source_index` lookup of `process` (lines 2618-2619): the groups
of original indices sharing a `base_key`, one group per distinct key. -/
def key_groups {α K : Type*} [DecidableEq K] [Inhabited α]
    (key : α → K) (xs : List α) : List (List ℕ) :=
  ((xs.map key).dedup).map (fun k =>
    (List.range xs.length).filter (fun i => key (xs.getD i default) = k))

/-- `Request.subrequest_map` flattened into the engine's `work` list
(lines 2062-2075 and 2637-2641): one work item per pair of a source group
and a target group. -/
def subrequest_work {S T K K2 : Type*} [DecidableEq K] [DecidableEq K2]
    [Inhabited S] [Inhabited T]
    (ks : S → K) (kt : T → K2) (sources : List S) (targets : List T) :
    List (List ℕ × List ℕ) :=
  (key_groups ks sources).flatMap (fun gs =>
    (key_groups kt targets).map (fun gt => (gs, gt)))

/-- `process_subrequest` (lines 2270-2323): compute the shared base
seismogram from the first source and the first target of the work item,
post-process every (source, target) pair of the item, and tag each result
with its original indices. -/
def process_subrequest {S T B R : Type*} [Inhabited S] [Inhabited T]
    (base : S → T → B) (post : B → S → T → R)
    (sources : List S) (targets : List T) (work : List ℕ × List ℕ) :
    List (ℕ × ℕ × R) :=
  let ss := work.1.map (fun i => sources.getD i default)
  let ts := work.2.map (fun j => targets.getD j default)
  let b := base ss.headI ts.headI
  work.1.flatMap (fun i => work.2.map (fun j =>
    (i, j, post b (sources.getD i default) (targets.getD j default))))

/-- `results_list` initialisation (lines 2633-2635): an
`ns × nt` grid of `None`. -/
def emptyGrid (R : Type*) (ns nt : ℕ) : List (List (Option R)) :=
  List.replicate ns (List.replicate nt none)

/-- `results_list[isource][itarget] = result` (line 2655). -/
def setCell {R : Type*} (g : List (List (Option R))) (i j : ℕ) (r : R) :
    List (List (Option R)) :=
  g.set i ((g.getD i []).set j (some r))

/-- Fold the tagged results into the grid. -/
def applyResults {R : Type*} (g : List (List (Option R)))
    (cells : List (ℕ × ℕ × R)) : List (List (Option R)) :=
  cells.foldl (fun g c => setCell g c.1 c.2.1 c.2.2) g

/-- `LocalEngine.process` (lines 2607-2647), statistics omitted: run
`process_subrequest` on every work item — in whatever order the parallel
map (`parimap`, not under `src/`) yields the work items — and place each
tagged result at `results_list[isource][itarget]`. -/
def process_results {S T B R : Type*} [Inhabited S] [Inhabited T]
    (base : S → T → B) (post : B → S → T → R)
    (sources : List S) (targets : List T) (order : List (List ℕ × List ℕ)) :
    List (List (Option R)) :=
  applyResults (emptyGrid R sources.length targets.length)
    (order.flatMap (process_subrequest base post sources targets))

/-! ### List summation helpers -/

theorem sum_zipWith_add {α : Type*} [AddCommMonoid α] :
    ∀ (u v : List α), u.length = v.length →
      (List.zipWith (· + ·) u v).sum = u.sum + v.sum
  | [], [], _ => by simp
  | [], _ :: _, h => by simp at h
  | _ :: _, [], h => by simp at h
  | x :: u, y :: v, h => by
    simp only [List.zipWith_cons_cons, List.sum_cons]
    rw [sum_zipWith_add u v (by simpa using h)]
    abel

theorem sum_map_mul {α : Type*} [NonUnitalNonAssocSemiring α] (c : α) (l : List α) :
    (l.map (fun x => c * x)).sum = c * l.sum := by
  induction l with
  | nil => simp
  | cons x t ih => simp [ih, mul_add]

theorem sum_zipWith_add_mul {α : Type*} [NonUnitalNonAssocRing α] :
    ∀ (u v t : List α), u.length = v.length →
      (List.zipWith (· * ·) (List.zipWith (· + ·) u v) t).sum
        = (List.zipWith (· * ·) u t).sum + (List.zipWith (· * ·) v t).sum
  | [], [], _, _ => by simp
  | [], _ :: _, _, h => by simp at h
  | _ :: _, [], _, h => by simp at h
  | x :: u, y :: v, [], h => by simp
  | x :: u, y :: v, z :: t, h => by
    simp only [List.zipWith_cons_cons, List.sum_cons]
    rw [sum_zipWith_add_mul u v t (by simpa using h), add_mul]
    abel

theorem sum_zipWith_mul_append_zero {α : Type*} [NonUnitalNonAssocRing α] :
    ∀ (u t : List α),
      (List.zipWith (· * ·) (u ++ [0]) t).sum = (List.zipWith (· * ·) u t).sum
  | [], [] => by simp
  | [], x :: t => by simp
  | a :: u, [] => by simp
  | a :: u, x :: t => by
    simp only [List.cons_append, List.zipWith_cons_cons, List.sum_cons,
      sum_zipWith_mul_append_zero u t]

theorem sum_zipWith_mul_cons_zero {α : Type*} [NonUnitalNonAssocRing α] (v t : List α) :
    (List.zipWith (· * ·) (0 :: v) t).sum = (List.zipWith (· * ·) v t.tail).sum := by
  cases t <;> simp

theorem sum_zipWith_mul_map_mul {α : Type*} [CommRing α] (c : α) :
    ∀ (a t : List α),
      (List.zipWith (· * ·) (a.map (fun x => c * x)) t).sum
        = c * (List.zipWith (· * ·) a t).sum
  | [], t => by simp
  | x :: a, [] => by simp
  | x :: a, y :: t => by
    simp only [List.map_cons, List.zipWith_cons_cons, List.sum_cons,
      sum_zipWith_mul_map_mul c a t]
    ring

theorem zipWith_mul_take {α : Type*} [Mul α] :
    ∀ (a t : List α), List.zipWith (· * ·) a t = List.zipWith (· * ·) a (t.take a.length)
  | [], t => by simp
  | x :: a, [] => by simp
  | x :: a, y :: t => by
    simp only [List.length_cons, List.take_succ_cons, List.zipWith_cons_cons]
    rw [← zipWith_mul_take a t]

theorem sum_zipWith_mul_map_add_const {α : Type*} [CommRing α] (c : α) :
    ∀ (a t : List α), a.length = t.length →
      (List.zipWith (· * ·) a (t.map (fun x => x + c))).sum
        = (List.zipWith (· * ·) a t).sum + c * a.sum
  | [], [], _ => by simp
  | [], _ :: _, h => by simp at h
  | _ :: _, [], h => by simp at h
  | x :: a, y :: t, h => by
    simp only [List.map_cons, List.zipWith_cons_cons, List.sum_cons]
    rw [sum_zipWith_mul_map_add_const c a t (by simpa using h)]
    ring

theorem ceil_eq_floor_add_one_of_ne {α : Type*} [LinearOrderedField α] [FloorRing α]
    (x : α) (h : (⌊x⌋ : ℤ) ≠ ⌈x⌉) : (⌈x⌉ : ℤ) = ⌊x⌋ + 1 := by
  have h1 := Int.floor_le_ceil x
  have h2 := Int.ceil_le_floor_add_one x
  omega

/-! ### Properties of sshift -/

theorem sshift_coeff_sum {α : Type*} [LinearOrderedField α] [FloorRing α]
    (tshift deltat : α) (hdt : deltat ≠ 0)
    (hne : (⌊tshift / deltat⌋ : α) * deltat ≠ (⌈tshift / deltat⌉ : α) * deltat) :
    ((⌈tshift / deltat⌉ : α) * deltat - tshift) / deltat
      + (tshift - (⌊tshift / deltat⌋ : α) * deltat) / deltat = 1 := by
  have hne' : (⌊tshift / deltat⌋ : ℤ) ≠ ⌈tshift / deltat⌉ := by
    intro h
    exact hne (by rw [h])
  have hcf := ceil_eq_floor_add_one_of_ne (tshift / deltat) hne'
  have : ((⌈tshift / deltat⌉ : ℤ) : α) = ((⌊tshift / deltat⌋ : ℤ) : α) + 1 := by
    exact_mod_cast congrArg (fun z : ℤ => (z : α)) hcf
  field_simp
  rw [this]
  ring

theorem sshift_sum {α : Type*} [LinearOrderedField α] [FloorRing α]
    (times amplitudes : List α) (tshift deltat : α) (hdt : deltat ≠ 0) :
    (sshift times amplitudes tshift deltat).2.sum = amplitudes.sum := by
  unfold sshift
  by_cases hc : (⌊tshift / deltat⌋ : α) * deltat = (⌈tshift / deltat⌉ : α) * deltat
  · simp [hc]
  · simp only [if_neg hc]
    rw [sum_zipWith_add _ _ (by simp)]
    simp only [List.sum_append, List.sum_cons, List.sum_nil, sum_map_mul]
    have h1 := sshift_coeff_sum tshift deltat hdt hc
    linear_combination amplitudes.sum * h1

theorem take_range_self (n : ℕ) : (List.range (n + 1)).take n = List.range n := by
  rw [List.range_succ, List.take_append_of_le_length (by simp)]
  simp

theorem sshift_moment {α : Type*} [LinearOrderedField α] [FloorRing α]
    (amplitudes times : List α) (tshift deltat t0v : α) (hdt : deltat ≠ 0)
    (ht : times = (List.range amplitudes.length).map (fun i : ℕ => t0v + (i : α) * deltat))
    (hne : (⌊tshift / deltat⌋ : α) * deltat ≠ (⌈tshift / deltat⌉ : α) * deltat) :
    (List.zipWith (· * ·) (sshift times amplitudes tshift deltat).2
        (sshift times amplitudes tshift deltat).1).sum
      = (List.zipWith (· * ·) amplitudes times).sum + tshift * amplitudes.sum := by
  rcases amplitudes with _ | ⟨a0, arest⟩
  · have ht' : times = [] := by simpa using ht
    subst ht'
    unfold sshift
    rw [if_neg hne]
    simp [show List.range 1 = [0] from rfl]
  set A := a0 :: arest with hA
  set n := A.length with hn
  have hlen : times.length = n := by rw [ht]; simp
  have hhead : times.headD 0 = t0v := by
    rw [ht, hn, hA]
    simp only [List.length_cons, List.range_succ_eq_map, List.map_cons, List.headD_cons]
    norm_num
  set fl := (⌊tshift / deltat⌋ : α) * deltat with hfl
  set ce := (⌈tshift / deltat⌉ : α) * deltat with hce
  have hstep : sshift times A tshift deltat =
      ((List.range (times.length + 1)).map (fun i : ℕ => (i : α) * deltat + times.headD 0 + fl),
       List.zipWith (· + ·)
         (A.map (fun a => (ce - tshift) / deltat * a) ++ [0])
         (0 :: A.map (fun a => (tshift - fl) / deltat * a))) := by
    rw [sshift, if_neg hne]
  rw [hstep]
  simp only [hlen, hhead]
  rw [sum_zipWith_add_mul _ _ _ (by simp)]
  rw [sum_zipWith_mul_append_zero, sum_zipWith_mul_cons_zero]
  rw [sum_zipWith_mul_map_mul, sum_zipWith_mul_map_mul]
  have hAlen : A.length = n := hn.symm
  have htake :
      ((List.range (n + 1)).map (fun i : ℕ => (i : α) * deltat + t0v + fl)).take A.length
        = times.map (fun x => x + fl) := by
    rw [hAlen, ← List.map_take, take_range_self, ht, List.map_map]
    apply List.map_congr_left
    intro i _
    simp only [Function.comp_apply]
    ring
  have htail :
      ((List.range (n + 1)).map (fun i : ℕ => (i : α) * deltat + t0v + fl)).tail
        = times.map (fun x => x + (fl + deltat)) := by
    rw [← List.map_tail, List.range_succ_eq_map]
    simp only [List.tail_cons, List.map_map]
    rw [ht, List.map_map]
    apply List.map_congr_left
    intro i _
    simp only [Function.comp_apply, Nat.succ_eq_add_one]
    push_cast
    ring
  rw [zipWith_mul_take A, htake, htail]
  rw [sum_zipWith_mul_map_add_const _ _ _ (by rw [hAlen, hlen]),
    sum_zipWith_mul_map_add_const _ _ _ (by rw [hAlen, hlen])]
  have h1 : (ce - tshift) / deltat + (tshift - fl) / deltat = 1 :=
    sshift_coeff_sum tshift deltat hdt hne
  have h2 : (tshift - fl) / deltat * deltat = tshift - fl := div_mul_cancel₀ _ hdt
  linear_combination ((List.zipWith (· * ·) A times).sum + fl * A.sum) * h1 + A.sum * h2

theorem sshift_eq_of_multiple {α : Type*} [LinearOrderedField α] [FloorRing α]
    (times amplitudes : List α) (tshift deltat : α) (hdt : deltat ≠ 0)
    (k : ℤ) (hk : tshift = (k : α) * deltat) :
    sshift times amplitudes tshift deltat = (times, amplitudes) := by
  unfold sshift
  have h : tshift / deltat = (k : α) := by
    rw [hk, mul_div_assoc, div_self hdt, mul_one]
  rw [if_pos]
  rw [h, Int.floor_intCast, Int.ceil_intCast]

/-! ### Piecewise-linear integral lemmas -/

theorem plfSegCum_of_le {α : Type*} [LinearOrderedField α] {t0 t1 f0 f1 x : α}
    (ht : t0 ≤ t1) (hx : x ≤ t0) : plfSegCum t0 t1 f0 f1 x = 0 := by
  have h1 : min x t1 ≤ t0 := le_trans (min_le_left _ _) hx
  have h2 : max t0 (min x t1) = t0 := max_eq_left h1
  simp only [plfSegCum, h2, sub_self]
  ring_nf

theorem plfSegCum_of_ge {α : Type*} [LinearOrderedField α] {t0 t1 f0 f1 x : α}
    (ht : t0 ≤ t1) (hx : t1 ≤ x) :
    plfSegCum t0 t1 f0 f1 x = (t1 - t0) * (f0 + f1) / 2 := by
  have h1 : min x t1 = t1 := min_eq_right hx
  have h2 : max t0 t1 = t1 := max_eq_right ht
  simp only [plfSegCum, h1, h2]
  rcases eq_or_lt_of_le ht with heq | hlt
  · subst heq
    simp
  · have hne : t1 - t0 ≠ 0 := sub_ne_zero.2 (ne_of_gt hlt)
    field_simp
    ring

theorem linspace_headD {α : Type*} [LinearOrderedField α] (a b : α) (m : ℕ) (hm : 1 ≤ m) :
    (linspace a b m).headD 0 = a := by
  obtain ⟨k, rfl⟩ : ∃ k, m = k + 1 := ⟨m - 1, by omega⟩
  unfold linspace
  rw [List.range_succ_eq_map]
  simp

theorem linspace_getLastD {α : Type*} [LinearOrderedField α] (a b : α) (m : ℕ) (hm : 2 ≤ m) :
    (linspace a b m).getLastD 0 = b := by
  obtain ⟨k, rfl⟩ : ∃ k, m = k + 1 := ⟨m - 1, by omega⟩
  unfold linspace
  rw [List.range_succ, List.map_append]
  simp only [List.map_cons, List.map_nil]
  rw [List.getLastD_concat]
  have hk : (k : α) ≠ 0 := Nat.cast_ne_zero.2 (by omega)
  push_cast
  field_simp

theorem headD_map {α β : Type*} (f : α → β) (l : List α) (d : α) (h : l ≠ []) :
    (l.map f).headD (f d) = f (l.headD d) := by
  cases l with
  | nil => exact absurd rfl h
  | cons x t => simp

theorem getLastD_map {α β : Type*} (f : α → β) :
    ∀ (l : List α) (d : α), (l.map f).getLastD (f d) = f (l.getLastD d)
  | [], _ => rfl
  | x :: t, d => by
    simp only [List.map_cons, List.getLastD_cons]
    exact getLastD_map f t x

theorem linspace_ne_nil {α : Type*} [LinearOrderedField α] (a b : α) (m : ℕ) (hm : 1 ≤ m) :
    linspace a b m ≠ [] := by
  intro h
  have := congrArg List.length h
  rw [linspace_length] at this
  simp at this
  omega

theorem plf_integrate_sum {α : Type*} [LinearOrderedField α] (t f : List α) (a b : α)
    (m : ℕ) (hm : 2 ≤ m) :
    (plf_integrate_piecewise (linspace a b m) t f).sum = plfCum t f b - plfCum t f a := by
  unfold plf_integrate_piecewise
  rw [adjDiffs_sum]
  have hne := linspace_ne_nil a b m (by omega)
  have h1 : ((linspace a b m).map (plfCum t f)).headD (plfCum t f 0)
      = plfCum t f ((linspace a b m).headD 0) := headD_map _ _ _ hne
  have h2 : ((linspace a b m).map (plfCum t f)).getLastD (plfCum t f 0)
      = plfCum t f ((linspace a b m).getLastD 0) := getLastD_map _ _ _
  have hh : ((linspace a b m).map (plfCum t f)).headD 0
      = ((linspace a b m).map (plfCum t f)).headD (plfCum t f 0) := by
    cases hc : (linspace a b m).map (plfCum t f) with
    | nil => exact absurd (List.map_eq_nil_iff.1 hc) hne
    | cons z zs => simp
  have hg : ((linspace a b m).map (plfCum t f)).getLastD 0
      = ((linspace a b m).map (plfCum t f)).getLastD (plfCum t f 0) := by
    cases hc : (linspace a b m).map (plfCum t f) with
    | nil => exact absurd (List.map_eq_nil_iff.1 hc) hne
    | cons z zs =>
      rcases hlast : (z :: zs).getLast? with _ | w
      · rw [List.getLast?_eq_none_iff] at hlast
        simp at hlast
      · simp [List.getLastD_eq_getLast?, hlast]
  rw [hh, hg, h1, h2, linspace_headD _ _ _ (by omega), linspace_getLastD _ _ _ hm]

theorem sum_map_div_self {α : Type*} [LinearOrderedField α] (l : List α) (h : l.sum ≠ 0) :
    (l.map (fun x => x / l.sum)).sum = 1 := by
  have h1 : (l.map (fun x => x / l.sum)).sum = (l.map (fun x => l.sum⁻¹ * x)).sum := by
    congr 1
    apply List.map_congr_left
    intro x _
    rw [div_eq_mul_inv, mul_comm]
  rw [h1, sum_map_mul, inv_mul_cancel₀ h]

theorem pyround_mul_near {α : Type*} [LinearOrderedField α] [FloorRing α]
    (x deltat : α) (hdt : 0 < deltat) :
    |(pyround (x / deltat) : α) * deltat - x| ≤ deltat / 2 := by
  have h := pyround_sub_le (x / deltat)
  have h2 : |(pyround (x / deltat) : α) - x / deltat| * deltat ≤ 1/2 * deltat :=
    mul_le_mul_of_nonneg_right h (le_of_lt hdt)
  have h3 : |(pyround (x / deltat) : α) - x / deltat| * deltat
      = |((pyround (x / deltat) : α) - x / deltat) * deltat| := by
    rw [abs_mul, abs_of_pos hdt]
  have h4 : ((pyround (x / deltat) : α) - x / deltat) * deltat
      = (pyround (x / deltat) : α) * deltat - x := by
    field_simp
  rw [h3, h4] at h2
  linarith

/-! ### Total integrals of the boxcar and triangle shapes -/

theorem boxcar_plfCum_left {α : Type*} [LinearOrderedField α] (ts du x : α)
    (hd : 0 ≤ du) (hx : x ≤ ts) :
    plfCum [ts + du * 0, ts + du * 0, ts + du * 1, ts + du * 1]
      ([0, 1, 1, 0] : List α) x = 0 := by
  have e : plfCum [ts + du * 0, ts + du * 0, ts + du * 1, ts + du * 1]
      ([0, 1, 1, 0] : List α) x
      = plfSegCum (ts + du * 0) (ts + du * 0) 0 1 x
        + (plfSegCum (ts + du * 0) (ts + du * 1) 1 1 x
          + (plfSegCum (ts + du * 1) (ts + du * 1) 1 0 x + 0)) := rfl
  rw [e, plfSegCum_of_le le_rfl (by nlinarith), plfSegCum_of_le (by nlinarith) (by nlinarith),
    plfSegCum_of_le le_rfl (by nlinarith)]
  ring

theorem boxcar_plfCum_right {α : Type*} [LinearOrderedField α] (ts du x : α)
    (hd : 0 ≤ du) (hx : ts + du * 1 ≤ x) :
    plfCum [ts + du * 0, ts + du * 0, ts + du * 1, ts + du * 1]
      ([0, 1, 1, 0] : List α) x = du := by
  have e : plfCum [ts + du * 0, ts + du * 0, ts + du * 1, ts + du * 1]
      ([0, 1, 1, 0] : List α) x
      = plfSegCum (ts + du * 0) (ts + du * 0) 0 1 x
        + (plfSegCum (ts + du * 0) (ts + du * 1) 1 1 x
          + (plfSegCum (ts + du * 1) (ts + du * 1) 1 0 x + 0)) := rfl
  rw [e, plfSegCum_of_ge le_rfl (by nlinarith), plfSegCum_of_ge (by nlinarith) (by nlinarith),
    plfSegCum_of_ge le_rfl (by nlinarith)]
  ring

theorem triangle_plfCum_left {α : Type*} [LinearOrderedField α] (ts du pr x : α)
    (hd : 0 ≤ du) (hpr0 : 0 ≤ pr) (hpr1 : pr ≤ 1) (hx : x ≤ ts) :
    plfCum [ts + du * 0, ts + du * pr, ts + du * 1] ([0, 1, 0] : List α) x = 0 := by
  have e : plfCum [ts + du * 0, ts + du * pr, ts + du * 1] ([0, 1, 0] : List α) x
      = plfSegCum (ts + du * 0) (ts + du * pr) 0 1 x
        + (plfSegCum (ts + du * pr) (ts + du * 1) 1 0 x + 0) := rfl
  have hpp : 0 ≤ du * pr := mul_nonneg hd hpr0
  have hp1 : du * pr ≤ du * 1 := by nlinarith
  rw [e, plfSegCum_of_le (by nlinarith) (by nlinarith),
    plfSegCum_of_le (by nlinarith) (by nlinarith)]
  ring

theorem triangle_plfCum_right {α : Type*} [LinearOrderedField α] (ts du pr x : α)
    (hd : 0 ≤ du) (hpr0 : 0 ≤ pr) (hpr1 : pr ≤ 1) (hx : ts + du * 1 ≤ x) :
    plfCum [ts + du * 0, ts + du * pr, ts + du * 1] ([0, 1, 0] : List α) x = du / 2 := by
  have e : plfCum [ts + du * 0, ts + du * pr, ts + du * 1] ([0, 1, 0] : List α) x
      = plfSegCum (ts + du * 0) (ts + du * pr) 0 1 x
        + (plfSegCum (ts + du * pr) (ts + du * 1) 1 0 x + 0) := rfl
  have hpp : 0 ≤ du * pr := mul_nonneg hd hpr0
  have hp1 : du * pr ≤ du * 1 := by nlinarith
  rw [e, plfSegCum_of_ge (by nlinarith) (by nlinarith),
    plfSegCum_of_ge (by nlinarith) (by nlinarith)]
  ring

/-! ### Amplitude sums of the four STF shapes -/

theorem STFBase.discretize_t_sum_unit {α : Type*} [LinearOrderedField α] [FloorRing α]
    (deltat tref : α) (hdt : 0 < deltat) :
    (STFBase.discretize_t deltat tref).2.sum = 1 := by
  unfold STFBase.discretize_t
  by_cases hc : (⌊tref / deltat⌋ : α) * deltat = (⌈tref / deltat⌉ : α) * deltat
  · rw [if_pos hc]
    simp
  · rw [if_neg hc]
    have h1 := sshift_coeff_sum tref deltat (ne_of_gt hdt) hc
    simp only [List.sum_cons, List.sum_nil]
    linarith

theorem BoxcarSTF.discretize_t_sum_boxcar {α : Type*} [LinearOrderedField α] [FloorRing α]
    (duration anchor deltat tref : α) (hdt : 0 < deltat) (hd : 0 ≤ duration) :
    (BoxcarSTF.discretize_t duration anchor deltat tref).2.sum = 1 := by
  unfold BoxcarSTF.discretize_t
  rw [sshift_sum _ _ _ _ (ne_of_gt hdt)]
  set tmin_stf := tref - duration * (anchor + 1) * (1/2) with hts
  set tmax_stf := tref + duration * (1 - anchor) * (1/2) with hte
  set k1 := pyround (tmin_stf / deltat) with hk1
  set k2 := pyround (tmax_stf / deltat) with hk2
  by_cases hnt : 1 < (k2 - k1).toNat + 1
  · rw [if_pos hnt]
    apply sum_map_div_self
    rw [plf_integrate_sum _ _ _ _ _ (by omega)]
    have hdne : duration ≠ 0 := by
      intro h0
      have : k1 = k2 := by
        rw [hk1, hk2, hts, hte, h0]
        norm_num
      omega
    have hdpos : 0 < duration := lt_of_le_of_ne hd (Ne.symm hdne)
    have hb1 := pyround_mul_near tmin_stf deltat hdt
    have hb2 := pyround_mul_near tmax_stf deltat hdt
    rw [abs_le] at hb1 hb2
    have hdiff : tmax_stf = tmin_stf + duration := by
      rw [hts, hte]; ring
    rw [boxcar_plfCum_right _ _ _ hd (by rw [← hk2] at hb2; nlinarith [hb2.1, hb2.2]),
      boxcar_plfCum_left _ _ _ hd (by rw [← hk1] at hb1; nlinarith [hb1.1, hb1.2])]
    simpa using hdne
  · rw [if_neg hnt]
    have h0 : (k2 - k1).toNat = 0 := by omega
    rw [h0]
    simp

theorem headD_map_linspace {α β : Type*} [LinearOrderedField α] (g : α → β) (a b : α)
    (m : ℕ) (hm : 1 ≤ m) (d : β) : ((linspace a b m).map g).headD d = g a := by
  have hne := linspace_ne_nil a b m hm
  rcases hl : linspace a b m with _ | ⟨x, xs⟩
  · exact absurd hl hne
  · have hx : x = a := by
      have h1 := linspace_headD a b m hm
      rw [hl] at h1
      simpa using h1
    subst hx
    simp

theorem getLastD_map_linspace {α β : Type*} [LinearOrderedField α] (g : α → β) (a b : α)
    (m : ℕ) (hm : 2 ≤ m) (d : β) : ((linspace a b m).map g).getLastD d = g b := by
  have hne := linspace_ne_nil a b m (by omega)
  rcases hl : linspace a b m with _ | ⟨x, xs⟩
  · exact absurd hl hne
  · rcases h2 : (x :: xs).getLast? with _ | y
    · rw [List.getLast?_eq_none_iff] at h2
      simp at h2
    · have hy : y = b := by
        have h1 := linspace_getLastD a b m hm
        rw [hl, List.getLastD_eq_getLast?, h2] at h1
        simpa using h1
      rw [List.getLastD_eq_getLast?, List.getLast?_map, h2]
      simp [hy]

theorem TriangularSTF.tminmax_diff {α : Type*} [LinearOrderedField α]
    (duration peak_ratio anchor tref : α) :
    (TriangularSTF.tminmax_stf duration peak_ratio anchor tref).2
      - (TriangularSTF.tminmax_stf duration peak_ratio anchor tref).1 = duration := by
  unfold TriangularSTF.tminmax_stf
  split <;> simp

theorem TriangularSTF.discretize_t_sum_triangular {α : Type*} [LinearOrderedField α] [FloorRing α]
    (duration peak_ratio anchor deltat tref : α) (hdt : 0 < deltat) (hd : 0 ≤ duration)
    (hpr0 : 0 ≤ peak_ratio) (hpr1 : peak_ratio ≤ 1) :
    (TriangularSTF.discretize_t duration peak_ratio anchor deltat tref).2.sum = 1 := by
  unfold TriangularSTF.discretize_t
  dsimp only
  set tmm := TriangularSTF.tminmax_stf duration peak_ratio anchor tref with htmm
  set k1 := pyround (tmm.1 / deltat) with hk1
  set k2 := pyround (tmm.2 / deltat) with hk2
  have hdiff := TriangularSTF.tminmax_diff duration peak_ratio anchor tref
  rw [← htmm] at hdiff
  by_cases hnt : 1 < (k2 - k1).toNat + 1
  · rw [if_pos hnt]
    apply sum_map_div_self
    rw [plf_integrate_sum _ _ _ _ _ (by omega)]
    have hdne : duration ≠ 0 := by
      intro h0
      have h12 : tmm.2 = tmm.1 := by linarith
      have : k1 = k2 := by rw [hk1, hk2, h12]
      omega
    have hdpos : 0 < duration := lt_of_le_of_ne hd (Ne.symm hdne)
    have hb1 := pyround_mul_near tmm.1 deltat hdt
    have hb2 := pyround_mul_near tmm.2 deltat hdt
    rw [abs_le] at hb1 hb2
    rw [← hk1] at hb1
    rw [← hk2] at hb2
    rw [triangle_plfCum_right _ _ _ _ hd hpr0 hpr1 (by nlinarith [hb2.1, hb2.2]),
      triangle_plfCum_left _ _ _ _ hd hpr0 hpr1 (by nlinarith [hb1.1, hb1.2])]
    simp only [sub_zero]
    positivity
  · rw [if_neg hnt]
    simp

theorem HalfSinusoidSTF.discretize_t_sum_halfsin (duration anchor deltat tref : ℝ)
    (hdt : 0 < deltat) (hd : 0 ≤ duration) :
    (HalfSinusoidSTF.discretize_t duration anchor deltat tref).2.sum = 1 := by
  unfold HalfSinusoidSTF.discretize_t
  dsimp only
  set tmin_stf := tref - duration * (anchor + 1) * (1/2) with hts
  set tmax_stf := tref + duration * (1 - anchor) * (1/2) with hte
  set k1 := pyround (tmin_stf / deltat) with hk1
  set k2 := pyround (tmax_stf / deltat) with hk2
  have hdiff : tmax_stf - tmin_stf = duration := by rw [hts, hte]; ring
  by_cases hnt : 1 < (k2 - k1).toNat + 1
  · rw [if_pos hnt]
    apply sum_map_div_self
    rw [adjDiffs_sum, List.map_map]
    have hdne : duration ≠ 0 := by
      intro h0
      have h12 : tmax_stf = tmin_stf := by linarith
      have : k1 = k2 := by rw [hk1, hk2, h12]
      omega
    have hdpos : 0 < duration := lt_of_le_of_ne hd (Ne.symm hdne)
    have hb1 := pyround_mul_near tmin_stf deltat hdt
    have hb2 := pyround_mul_near tmax_stf deltat hdt
    rw [abs_le] at hb1 hb2
    rw [← hk1] at hb1
    rw [← hk2] at hb2
    set A := (k1 : ℝ) * deltat - 1/2 * deltat with hA
    set B := (k2 : ℝ) * deltat + 1/2 * deltat with hB
    have hAle : A ≤ tmin_stf := by rw [hA]; nlinarith [hb1.1, hb1.2]
    have hBge : tmax_stf ≤ B := by rw [hB]; nlinarith [hb2.1, hb2.2]
    have hmm : tmin_stf ≤ tmax_stf := by linarith
    rw [headD_map_linspace _ _ _ _ (by omega), getLastD_map_linspace _ _ _ _ (by omega)]
    simp only [Function.comp_apply]
    have hclampA : max tmin_stf (min tmax_stf A) = tmin_stf := by
      rw [min_eq_right (le_trans hAle hmm), max_eq_left hAle]
    have hclampB : max tmin_stf (min tmax_stf B) = tmax_stf := by
      rw [min_eq_left hBge, max_eq_right hmm]
    rw [hclampA, hclampB, sub_self, zero_mul, Real.cos_zero, hdiff,
      mul_div_assoc', mul_div_cancel_left₀ _ hdne, Real.cos_pi]
    norm_num
  · rw [if_neg hnt]
    simp

/-! ### Claims C2 and C3 -/

/-- C2: for every STF shape (unit pulse, boxcar, triangular, half-sinusoid),
every sampling interval `deltat > 0`, every reference time `tref` and every
`duration ≥ 0` (with the triangular peak ratio in `[0, 1]`), the amplitude
sequence returned by `discretize_t(deltat, tref)` sums to exactly `1` in
exact arithmetic — in particular to `1.0` within `1e-9`. -/
theorem stf_amplitudes_sum_one (deltat tref duration anchor peak_ratio : ℝ)
    (hdt : 0 < deltat) (hd : 0 ≤ duration)
    (hpr0 : 0 ≤ peak_ratio) (hpr1 : peak_ratio ≤ 1) :
    (STFBase.discretize_t deltat tref).2.sum = 1
    ∧ (BoxcarSTF.discretize_t duration anchor deltat tref).2.sum = 1
    ∧ (TriangularSTF.discretize_t duration peak_ratio anchor deltat tref).2.sum = 1
    ∧ (HalfSinusoidSTF.discretize_t duration anchor deltat tref).2.sum = 1 :=
  ⟨STFBase.discretize_t_sum_unit _ _ hdt, BoxcarSTF.discretize_t_sum_boxcar _ _ _ _ hdt hd,
   TriangularSTF.discretize_t_sum_triangular _ _ _ _ _ hdt hd hpr0 hpr1,
   HalfSinusoidSTF.discretize_t_sum_halfsin _ _ _ _ hdt hd⟩

/-- C2 witness: concrete instance at `deltat = 1`, `tref = 1/3`,
`duration = 2`, `anchor = 0`, `peak_ratio = 1/2`. -/
theorem stf_amplitudes_sum_one_witness :
    (STFBase.discretize_t (1 : ℝ) (1/3)).2.sum = 1
    ∧ (BoxcarSTF.discretize_t (2 : ℝ) 0 1 (1/3)).2.sum = 1
    ∧ (TriangularSTF.discretize_t (2 : ℝ) (1/2) 0 1 (1/3)).2.sum = 1
    ∧ (HalfSinusoidSTF.discretize_t (2 : ℝ) 0 1 (1/3)).2.sum = 1 :=
  stf_amplitudes_sum_one 1 (1/3) 2 0 (1/2) (by norm_num) (by norm_num)
    (by norm_num) (by norm_num)

/-- C3: for boxcar, triangular and half-sinusoid STFs, `effective_duration`
equals `duration * factor(shape)` exactly, with the closed-form factors
`1`, `sqrt((peak_ratio^2 - peak_ratio + 1) * 2/3)` and
`sqrt((3*pi^2 - 24)/pi^2)` respectively; constructing an STF with
`effective_duration = ed` sets `duration = ed / factor(shape)`, and
this round-trips: the resulting STF has effective duration `ed`. -/
theorem effective_duration_factor (duration peak_ratio ed : ℝ) :
    BoxcarSTF.effective_duration duration = duration * 1
    ∧ TriangularSTF.effective_duration duration peak_ratio
        = duration * Real.sqrt ((peak_ratio ^ 2 - peak_ratio + 1) * 2 / 3)
    ∧ HalfSinusoidSTF.effective_duration duration
        = duration * Real.sqrt ((3 * Real.pi ^ 2 - 24) / Real.pi ^ 2)
    ∧ BoxcarSTF.duration_of_effective ed = ed / 1
    ∧ TriangularSTF.duration_of_effective ed peak_ratio
        = ed / Real.sqrt ((peak_ratio ^ 2 - peak_ratio + 1) * 2 / 3)
    ∧ HalfSinusoidSTF.duration_of_effective ed
        = ed / Real.sqrt ((3 * Real.pi ^ 2 - 24) / Real.pi ^ 2)
    ∧ BoxcarSTF.effective_duration (BoxcarSTF.duration_of_effective ed) = ed
    ∧ TriangularSTF.effective_duration
        (TriangularSTF.duration_of_effective ed peak_ratio) peak_ratio = ed
    ∧ HalfSinusoidSTF.effective_duration (HalfSinusoidSTF.duration_of_effective ed) = ed := by
  have htri : 0 < Real.sqrt ((peak_ratio ^ 2 - peak_ratio + 1) * 2 / 3) := by
    apply Real.sqrt_pos.2
    nlinarith [sq_nonneg (peak_ratio - 1/2)]
  have hpi : 0 < Real.sqrt ((3 * Real.pi ^ 2 - 24) / Real.pi ^ 2) := by
    apply Real.sqrt_pos.2
    have h3 := Real.pi_gt_three
    apply div_pos (by nlinarith) (by positivity)
  refine ⟨by simp [BoxcarSTF.effective_duration], rfl, rfl, rfl, rfl, rfl, ?_, ?_, ?_⟩
  · simp [BoxcarSTF.effective_duration, BoxcarSTF.duration_of_effective,
      BoxcarSTF.factor_duration_to_effective]
  · unfold TriangularSTF.effective_duration TriangularSTF.duration_of_effective
      TriangularSTF.factor_duration_to_effective
    rw [div_mul_cancel₀]
    exact ne_of_gt (by simpa [TriangularSTF.factor_duration_to_effective] using htri)
  · unfold HalfSinusoidSTF.effective_duration HalfSinusoidSTF.duration_of_effective
      HalfSinusoidSTF.factor_duration_to_effective
    rw [div_mul_cancel₀]
    exact ne_of_gt (by simpa [HalfSinusoidSTF.factor_duration_to_effective] using hpi)

/-! ### Claim C1 -/

/-- C1 (falsified by the code): the claim says equal `base_key()` implies
identical discretized sources for every source class, including
`RingfaultSource`.  But `RingfaultSource.base_key` omits `npointsources`
while `discretize_basesource` depends on it: two ring faults differing only
in `npointsources` (1 vs 2, all other fields at their class defaults, store
`deltat = 1`) share a base key yet produce discretized sources with 1 vs 2
elementary contributions (different `times` arrays). -/
theorem ringfault_base_key_counterexample :
    ({ npointsources := 1 } : RingfaultSource).base_key
        = ({ npointsources := 2 } : RingfaultSource).base_key
    ∧ ({ npointsources := 1 } : RingfaultSource).discretize_times 1
        ≠ ({ npointsources := 2 } : RingfaultSource).discretize_times 1 := by
  constructor
  · rfl
  · intro h
    have ht : (STFBase.discretize_t (1 : ℝ) 0).1 = [0] := by
      unfold STFBase.discretize_t
      norm_num
    have e1 : ({ npointsources := 1 } : RingfaultSource).discretize_times 1
        = tile (STFBase.discretize_t (1 : ℝ) 0).1 1 := rfl
    have e2 : ({ npointsources := 2 } : RingfaultSource).discretize_times 1
        = tile (STFBase.discretize_t (1 : ℝ) 0).1 2 := rfl
    rw [e1, e2, ht] at h
    have hlen := congrArg List.length h
    rw [tile_length, tile_length] at hlen
    norm_num at hlen

/-! ### Grid structure lemmas for discretize_rect_source -/

theorem nrepeat_length {α : Type*} (l : List α) (n : ℕ) :
    (nrepeat l n).length = l.length * n := by
  induction l with
  | nil => simp [nrepeat]
  | cons x t ih =>
    simp only [nrepeat, List.flatMap_cons, List.length_append, List.length_replicate]
    rw [show (t.flatMap fun y => List.replicate n y) = nrepeat t n from rfl, ih]
    simp only [List.length_cons]
    ring

theorem nrepeat_one {α : Type*} : ∀ (l : List α), nrepeat l 1 = l
  | [] => rfl
  | x :: t => by
    have h : nrepeat (x :: t) 1 = List.replicate 1 x ++ nrepeat t 1 := rfl
    rw [h, nrepeat_one t, List.replicate_one]
    rfl

theorem tile_succ {α : Type*} (l : List α) (n : ℕ) : tile l (n + 1) = l ++ tile l n := by
  simp [tile, List.replicate_succ]

theorem tile_singleton {α : Type*} (x : α) (n : ℕ) : tile [x] n = List.replicate n x := by
  induction n with
  | zero => rfl
  | succ k ih => rw [tile_succ, ih, List.replicate_succ]; rfl

theorem zip_replicate_right {α β : Type*} (y : β) :
    ∀ (a : List α), a.zip (List.replicate a.length y) = a.map (fun x => (x, y))
  | [] => rfl
  | x :: t => by
    simp only [List.length_cons, List.replicate_succ, List.zip_cons_cons, List.map_cons]
    rw [zip_replicate_right y t]

theorem zip_tile_nrepeat {α β : Type*} (a : List α) :
    ∀ (b : List β),
      (tile a b.length).zip (nrepeat b a.length)
        = b.flatMap (fun y => a.map (fun x => (x, y)))
  | [] => by simp [tile, nrepeat]
  | y :: b => by
    rw [List.length_cons, tile_succ, show nrepeat (y :: b) a.length
        = List.replicate a.length y ++ nrepeat b a.length from rfl,
      List.zip_append (by simp), zip_replicate_right, zip_tile_nrepeat a b,
      List.flatMap_cons]

theorem zipWith_add_replicate_zero {α : Type*} [AddMonoid α] :
    ∀ (l : List α) (n : ℕ), l.length ≤ n →
      List.zipWith (· + ·) l (List.replicate n 0) = l
  | [], _, _ => by simp
  | x :: t, 0, h => by simp at h
  | x :: t, n + 1, h => by
    simp only [List.replicate_succ, List.zipWith_cons_cons, add_zero]
    rw [zipWith_add_replicate_zero t n (by simpa using h)]

theorem linspace_arith {α : Type*} [LinearOrderedField α] (a b step : α) (m : ℕ)
    (hstep : b - a = ((m : α) - 1) * step) :
    linspace a b m = (List.range m).map (fun i : ℕ => a + (i : α) * step) := by
  unfold linspace
  apply List.map_congr_left
  intro i hi
  rw [List.mem_range] at hi
  rcases Nat.lt_or_ge m 2 with hm | hm
  · interval_cases m
    · omega
    · have : i = 0 := by omega
      subst this
      simp
  · have hm1 : (m : α) - 1 ≠ 0 := by
      have : (2 : α) ≤ (m : α) := by exact_mod_cast hm
      intro h0
      have : (m : α) = 1 := by linarith
      linarith
    rw [hstep]
    field_simp
    ring

theorem foldl_min_gt {α : Type*} [LinearOrder α] (d : α) :
    ∀ (xs : List α) (acc : α), d < acc → (∀ x ∈ xs, d < x) →
      d < List.foldl min acc xs
  | [], _, hacc, _ => hacc
  | y :: ys, acc, hacc, hpos => by
    simp only [List.foldl_cons]
    exact foldl_min_gt d ys (min acc y) (lt_min hacc (hpos y (by simp)))
      (fun z hz => hpos z (by simp [hz]))

theorem npmin_pos {α : Type*} [LinearOrder α] (d : α) (l : List α) (hne : l ≠ [])
    (hpos : ∀ x ∈ l, d < x) : d < npmin d l := by
  rcases l with _ | ⟨x, xs⟩
  · exact absurd rfl hne
  · exact foldl_min_gt d xs x (hpos x (by simp)) (fun z hz => hpos z (by simp [hz]))

theorem unitPulse_discretize_zero (deltat : ℝ) :
    STF.unitPulse.discretize_t deltat 0 = ([0], [1]) := by
  show STFBase.discretize_t deltat 0 = ([0], [1])
  unfold STFBase.discretize_t
  norm_num

/-! ### Claim C4 -/

/-- C4 (counterexample): the claim says the grid spacing `dl` equals
`min(min(deltas), deltat * velocity)`.  On a store with `deltas = [1]`,
`deltat = 1`, for a source with `length = width = 1`, `velocity = 1`, the
minimum is `1` but the code computes `nl = 2*ceil(1/1)+1 = 3` and
`dl = length/nl = 1/3`. -/
theorem discretize_rect_spacing_counterexample :
    ¬ ((discretize_rect_source [1] 1 id 1 1 1 STF.unitPulse none none 0).2.2.2.1
        = min (npmin 0 [1]) (1 * 1)) := by
  unfold discretize_rect_source npmin
  norm_num
  omega

theorem zip_tile_nrepeat' {α β : Type*} (a : List α) (b : List β) (na nb : ℕ)
    (ha : a.length = na) (hb : b.length = nb) :
    (tile a nb).zip (nrepeat b na)
      = b.flatMap (fun y => a.map (fun x => (x, y))) := by
  subst ha
  subst hb
  exact zip_tile_nrepeat a b

/-- C4 (amended): `discretize_rect_source` produces the regular `nl × nw`
grid with `nl = 2*ceil(l/m)+1`, `nw = 2*ceil(w/m)+1` where
`m = min(min(deltas), deltat*velocity)`; the spacings are `dl = l/nl` and
`dw = w/nw` — at most `m`, not equal to `m` — the subpoints are the rotation
by (strike, dip) of the in-plane regular grid (down-dip-major order), and
the rupture time of each subpoint is its in-plane distance from the
nucleation point divided by the rupture velocity (default unit-pulse STF,
`tref = 0`). -/
theorem discretize_rect_source_spec (deltas : List ℝ) (deltat : ℝ)
    (rot : ℝ × ℝ × ℝ → ℝ × ℝ × ℝ) (l w v m : ℝ) (nl nw : ℕ) (dl dw : ℝ)
    (nucx nucy : Option ℝ)
    (hne : deltas ≠ []) (hpos : ∀ d ∈ deltas, 0 < d) (hdt : 0 < deltat) (hv : 0 < v)
    (hl : 0 ≤ l) (hw : 0 ≤ w)
    (hm : m = min (npmin 0 deltas) (deltat * v))
    (hnl : nl = (2 * ⌈l / m⌉ + 1).toNat) (hnw : nw = (2 * ⌈w / m⌉ + 1).toNat)
    (hdl : dl = l / (nl : ℝ)) (hdw : dw = w / (nw : ℝ)) :
    (discretize_rect_source deltas deltat rot l w v STF.unitPulse nucx nucy 0).2.2.2.1 = dl
    ∧ (discretize_rect_source deltas deltat rot l w v STF.unitPulse nucx nucy 0).2.2.2.2 = dw
    ∧ dl ≤ m ∧ dw ≤ m
    ∧ (discretize_rect_source deltas deltat rot l w v STF.unitPulse nucx nucy 0).1
      = (List.range nw).flatMap (fun j : ℕ => (List.range nl).map (fun i : ℕ =>
          rot (-(1/2) * (l - dl) + (i : ℝ) * dl, -(1/2) * (w - dw) + (j : ℝ) * dw, 0)))
    ∧ (discretize_rect_source deltas deltat rot l w v STF.unitPulse nucx nucy 0).2.1
      = (List.range nw).flatMap (fun j : ℕ => (List.range nl).map (fun i : ℕ =>
          Real.sqrt
            ((match nucx with
              | some nx => |nx - (-(1/2) * (l - dl) + (i : ℝ) * dl)| | none => 0) ^ 2
             + (match nucy with
              | some ny => |ny - (-(1/2) * (w - dw) + (j : ℝ) * dw)| | none => 0) ^ 2) / v))
    ∧ (discretize_rect_source deltas deltat rot l w v STF.unitPulse nucx nucy 0).2.2.1
      = List.replicate (nl * nw) 1 := by
  have hmpos : 0 < m := by
    rw [hm]
    exact lt_min (npmin_pos 0 deltas hne hpos) (mul_pos hdt hv)
  have hclnn : 0 ≤ ⌈l / m⌉ := Int.ceil_nonneg (div_nonneg hl hmpos.le)
  have hcwnn : 0 ≤ ⌈w / m⌉ := Int.ceil_nonneg (div_nonneg hw hmpos.le)
  have hnlZ : (nl : ℤ) = 2 * ⌈l / m⌉ + 1 := by rw [hnl]; omega
  have hnwZ : (nw : ℤ) = 2 * ⌈w / m⌉ + 1 := by rw [hnw]; omega
  have hnlR : ((nl : ℝ)) ≠ 0 := Nat.cast_ne_zero.2 (by omega)
  have hnwR : ((nw : ℝ)) ≠ 0 := Nat.cast_ne_zero.2 (by omega)
  have hldl : (nl : ℝ) * dl = l := by rw [hdl, mul_comm]; exact div_mul_cancel₀ l hnlR
  have hwdw : (nw : ℝ) * dw = w := by rw [hdw, mul_comm]; exact div_mul_cancel₀ w hnwR
  have hnlRv : (nl : ℝ) = 2 * (⌈l / m⌉ : ℝ) + 1 := by exact_mod_cast hnlZ
  have hnwRv : (nw : ℝ) = 2 * (⌈w / m⌉ : ℝ) + 1 := by exact_mod_cast hnwZ
  have hnlpos : (0 : ℝ) < (nl : ℝ) := by
    have h0 : 0 < nl := by omega
    exact_mod_cast h0
  have hnwpos : (0 : ℝ) < (nw : ℝ) := by
    have h0 : 0 < nw := by omega
    exact_mod_cast h0
  have hlc : l ≤ (⌈l / m⌉ : ℝ) * m := by
    have hcl : l / m ≤ ((⌈l / m⌉ : ℤ) : ℝ) := Int.le_ceil _
    rwa [div_le_iff₀ hmpos] at hcl
  have hwc : w ≤ (⌈w / m⌉ : ℝ) * m := by
    have hcw : w / m ≤ ((⌈w / m⌉ : ℤ) : ℝ) := Int.le_ceil _
    rwa [div_le_iff₀ hmpos] at hcw
  have hdlm : dl ≤ m := by
    rw [hdl, div_le_iff₀ hnlpos, hnlRv]
    nlinarith
  have hdwm : dw ≤ m := by
    rw [hdw, div_le_iff₀ hnwpos, hnwRv]
    nlinarith
  have hNL : (2 * ⌈l / min (npmin 0 deltas) (deltat * v)⌉ + 1).toNat = nl := by
    rw [← hm, hnl]
  have hNW : (2 * ⌈w / min (npmin 0 deltas) (deltat * v)⌉ + 1).toNat = nw := by
    rw [← hm, hnw]
  have hDL : l / (((2 * ⌈l / min (npmin 0 deltas) (deltat * v)⌉ + 1).toNat : ℕ) : ℝ) = dl := by
    rw [hNL, hdl]
  have hDW : w / (((2 * ⌈w / min (npmin 0 deltas) (deltat * v)⌉ + 1).toNat : ℕ) : ℝ) = dw := by
    rw [hNW, hdw]
  have hxl : linspace (-(1/2) * (l - dl)) ((1/2) * (l - dl)) nl
      = (List.range nl).map (fun i : ℕ => -(1/2) * (l - dl) + (i : ℝ) * dl) := by
    apply linspace_arith
    linear_combination -hldl
  have hxw : linspace (-(1/2) * (w - dw)) ((1/2) * (w - dw)) nw
      = (List.range nw).map (fun j : ℕ => -(1/2) * (w - dw) + (j : ℝ) * dw) := by
    apply linspace_arith
    linear_combination -hwdw
  have hpts :
      (tile (linspace (-(1/2) * (l - dl)) ((1/2) * (l - dl)) nl) nw).zip
        (nrepeat (linspace (-(1/2) * (w - dw)) ((1/2) * (w - dw)) nw) nl)
      = (List.range nw).flatMap (fun j : ℕ => (List.range nl).map (fun i : ℕ =>
          ((-(1/2) * (l - dl) + (i : ℝ) * dl : ℝ),
           (-(1/2) * (w - dw) + (j : ℝ) * dw : ℝ)))) := by
    rw [zip_tile_nrepeat' _ _ _ _ (linspace_length _ _ _) (linspace_length _ _ _),
      hxl, hxw, List.flatMap_map]
    congr 1
    funext j
    rw [List.map_map]
    rfl
  have hlenpts :
      ((tile (linspace (-(1/2) * (l - dl)) ((1/2) * (l - dl)) nl) nw).zip
        (nrepeat (linspace (-(1/2) * (w - dw)) ((1/2) * (w - dw)) nw) nl)).length
      = nl * nw := by
    rw [List.length_zip, tile_length, nrepeat_length, linspace_length, linspace_length,
      min_self, Nat.mul_comm]
  have hmain : discretize_rect_source deltas deltat rot l w v STF.unitPulse nucx nucy 0
      = (((tile (linspace (-(1/2) * (l - dl)) ((1/2) * (l - dl)) nl) nw).zip
            (nrepeat (linspace (-(1/2) * (w - dw)) ((1/2) * (w - dw)) nw) nl)).map
          (fun p => rot (p.1, p.2, 0)),
         ((tile (linspace (-(1/2) * (l - dl)) ((1/2) * (l - dl)) nl) nw).zip
            (nrepeat (linspace (-(1/2) * (w - dw)) ((1/2) * (w - dw)) nw) nl)).map
          (fun p => Real.sqrt
            ((match nucx with | some nx => |nx - p.1| | none => 0) ^ 2
             + (match nucy with | some ny => |ny - p.2| | none => 0) ^ 2) / v),
         List.replicate (nl * nw) 1, dl, dw) := by
    unfold discretize_rect_source
    rw [unitPulse_discretize_zero]
    dsimp only
    simp only [List.length_cons, List.length_nil, Nat.zero_add]
    rw [hDL, hDW, hNL, hNW]
    rw [nrepeat_one, nrepeat_one, tile_singleton, tile_singleton, List.map_map]
    rw [zipWith_add_replicate_zero _ _
      (le_of_eq (by simp only [List.length_map]; exact hlenpts))]
    rfl
  have hc1 := congrArg (fun q : List (ℝ × ℝ × ℝ) × List ℝ × List ℝ × ℝ × ℝ => q.1) hmain
  have hc2 := congrArg (fun q : List (ℝ × ℝ × ℝ) × List ℝ × List ℝ × ℝ × ℝ => q.2.1) hmain
  have hc3 := congrArg (fun q : List (ℝ × ℝ × ℝ) × List ℝ × List ℝ × ℝ × ℝ => q.2.2.1) hmain
  have hc4 := congrArg (fun q : List (ℝ × ℝ × ℝ) × List ℝ × List ℝ × ℝ × ℝ => q.2.2.2.1) hmain
  have hc5 := congrArg (fun q : List (ℝ × ℝ × ℝ) × List ℝ × List ℝ × ℝ × ℝ => q.2.2.2.2) hmain
  simp only at hc1 hc2 hc3 hc4 hc5
  refine ⟨hc4, hc5, hdlm, hdwm, ?_, ?_, hc3⟩
  · rw [hc1, hpts, List.map_flatMap]
    congr 1
    funext j
    rw [List.map_map]
    rfl
  · rw [hc2, hpts, List.map_flatMap]
    congr 1
    funext j
    rw [List.map_map]
    rfl

/-- C4 witness: concrete instance at `deltas = [1]`, `deltat = 1`,
`rot = id`, `l = 1`, `w = 0`, `v = 1`, nucleation at in-plane `x = 0`:
`m = 1`, `nl = 3`, `nw = 1`, `dl = 1/3`, `dw = 0`. -/
theorem discretize_rect_source_spec_witness :
    (discretize_rect_source [1] 1 id 1 0 1 STF.unitPulse (some 0) none 0).2.2.2.1 = 1/3
    ∧ (discretize_rect_source [1] 1 id 1 0 1 STF.unitPulse (some 0) none 0).2.2.2.2 = 0
    ∧ (1/3 : ℝ) ≤ 1 ∧ (0 : ℝ) ≤ 1
    ∧ (discretize_rect_source [1] 1 id 1 0 1 STF.unitPulse (some 0) none 0).1
      = (List.range 1).flatMap (fun j : ℕ => (List.range 3).map (fun i : ℕ =>
          id ((-(1/2) * (1 - 1/3) + (i : ℝ) * (1/3) : ℝ),
              (-(1/2) * ((0:ℝ) - 0) + (j : ℝ) * 0 : ℝ), (0:ℝ))))
    ∧ (discretize_rect_source [1] 1 id 1 0 1 STF.unitPulse (some 0) none 0).2.1
      = (List.range 1).flatMap (fun j : ℕ => (List.range 3).map (fun i : ℕ =>
          Real.sqrt
            ((match (some (0:ℝ)) with
              | some nx => |nx - (-(1/2) * (1 - 1/3) + (i : ℝ) * (1/3))| | none => 0) ^ 2
             + (match (none : Option ℝ) with
              | some ny => |ny - (-(1/2) * ((0:ℝ) - 0) + (j : ℝ) * 0)| | none => 0) ^ 2) / 1))
    ∧ (discretize_rect_source [1] 1 id 1 0 1 STF.unitPulse (some 0) none 0).2.2.1
      = List.replicate (3 * 1) 1 :=
  discretize_rect_source_spec [1] 1 id 1 0 1 1 3 1 (1/3) 0 (some 0) none
    (by simp) (by norm_num) one_pos one_pos (by norm_num) le_rfl
    (by norm_num [npmin]) (by norm_num; rfl) (by norm_num) (by norm_num) (by norm_num)

/-! ### Claim C10 -/

/-- C10 (counterexample): the claim asserts that the amplitude-weighted
centroid of `sshift(t, a, tshift, deltat)` always equals the centroid of
`(t, a)` plus `tshift`.  At `times = [0]`, `amplitudes = [1]`, `tshift = 1`,
`deltat = 1` the shift is a nonzero integer multiple of `deltat`, the code
returns the inputs unchanged, and the centroid is `0`, not `0 + 1`. -/
theorem sshift_centroid_counterexample :
    ¬ ((List.zipWith (· * ·) (sshift ([0] : List ℚ) [1] 1 1).2
          (sshift ([0] : List ℚ) [1] 1 1).1).sum
        / (sshift ([0] : List ℚ) [1] 1 1).2.sum
      = (List.zipWith (· * ·) ([1] : List ℚ) [0]).sum / ([1] : List ℚ).sum + 1) := by
  norm_num [sshift, Int.floor_one, Int.ceil_one]

/-- C10 (amended): for amplitudes over uniformly spaced times with spacing
`deltat > 0`, `sshift` preserves the amplitude sum exactly; when `tshift` is
not an integer multiple of `deltat` (and total mass is nonzero) the
amplitude-weighted centroid of the result equals the centroid of the input
plus `tshift`; when `tshift` is an integer multiple of `deltat` the inputs
are returned unchanged (so in that case the centroid is not shifted). -/
theorem sshift_props {α : Type*} [LinearOrderedField α] [FloorRing α]
    (times amplitudes : List α) (tshift deltat t0v : α)
    (hdt : 0 < deltat)
    (ht : times = (List.range amplitudes.length).map (fun i : ℕ => t0v + (i : α) * deltat)) :
    (sshift times amplitudes tshift deltat).2.sum = amplitudes.sum
    ∧ ((∀ k : ℤ, tshift ≠ (k : α) * deltat) → amplitudes.sum ≠ 0 →
        (List.zipWith (· * ·) (sshift times amplitudes tshift deltat).2
            (sshift times amplitudes tshift deltat).1).sum
          / (sshift times amplitudes tshift deltat).2.sum
        = (List.zipWith (· * ·) amplitudes times).sum / amplitudes.sum + tshift)
    ∧ ((∃ k : ℤ, tshift = (k : α) * deltat) →
        sshift times amplitudes tshift deltat = (times, amplitudes)) := by
  have hdt' : deltat ≠ 0 := ne_of_gt hdt
  refine ⟨sshift_sum _ _ _ _ hdt', ?_, ?_⟩
  · intro hk hsum
    have hne : (⌊tshift / deltat⌋ : α) * deltat ≠ (⌈tshift / deltat⌉ : α) * deltat := by
      intro h
      have hfc : (⌊tshift / deltat⌋ : ℤ) = ⌈tshift / deltat⌉ := by
        have := mul_right_cancel₀ hdt' h
        exact_mod_cast this
      have hint : tshift / deltat = ((⌊tshift / deltat⌋ : ℤ) : α) := by
        have h1 := Int.floor_le (tshift / deltat)
        have h2 := Int.le_ceil (tshift / deltat)
        rw [← hfc] at h2
        linarith
      exact hk ⌊tshift / deltat⌋ ((div_eq_iff hdt').1 hint)
    rw [sshift_sum _ _ _ _ hdt',
      sshift_moment amplitudes times tshift deltat t0v hdt' ht hne]
    field_simp
  · rintro ⟨k, hk⟩
    exact sshift_eq_of_multiple _ _ _ _ hdt' k hk

/-- C10 witness: concrete instance of `sshift_props` at
`times = [0, 1]`, `amplitudes = [1, 1]`, `deltat = 1`, with the
non-degenerate shift `1/2` and the degenerate shift `3`. -/
theorem sshift_props_witness :
    (sshift ([0, 1] : List ℚ) [1, 1] (1/2) 1).2.sum = ([1, 1] : List ℚ).sum
    ∧ (List.zipWith (· * ·) (sshift ([0, 1] : List ℚ) [1, 1] (1/2) 1).2
          (sshift ([0, 1] : List ℚ) [1, 1] (1/2) 1).1).sum
        / (sshift ([0, 1] : List ℚ) [1, 1] (1/2) 1).2.sum
      = (List.zipWith (· * ·) ([1, 1] : List ℚ) [0, 1]).sum / ([1, 1] : List ℚ).sum + 1/2
    ∧ sshift ([0, 1] : List ℚ) [1, 1] 3 1 = ([0, 1], [1, 1]) := by
  have hu : ([0, 1] : List ℚ)
      = (List.range ([1, 1] : List ℚ).length).map (fun i : ℕ => 0 + (i : ℚ) * 1) := by
    norm_num [List.range_succ]
  have h1 := sshift_props ([0, 1] : List ℚ) [1, 1] (1/2) 1 0 one_pos hu
  have h2 := sshift_props ([0, 1] : List ℚ) [1, 1] 3 1 0 one_pos hu
  refine ⟨h1.1, h1.2.1 ?_ (by norm_num [List.sum_cons, List.sum_nil]), h2.2.2 ⟨3, by norm_num⟩⟩
  intro k hk
  rw [mul_one] at hk
  have h3 : ((2 * k : ℤ) : ℚ) = 1 := by push_cast; linarith
  have h4 : (2 * k : ℤ) = 1 := by exact_mod_cast h3
  omega

/-! ### Claim C7 -/

/-- C7: for a `Range` with `log` or `symlog` spacing resolving to endpoints
`start`, `stop` and count `n`: if the interval `[min start stop, max start
stop]` includes or crosses zero, `make()` fails with `InvalidGridDef`;
for positive `start` and `stop`, `log` returns exactly
`exp(linspace(log start, log stop, n))` and `symlog` returns those values
mirrored around zero (negated, reversed, prepended). -/
theorem range_make_log_spec (start stop : ℝ) (n : ℕ) :
    ((min start stop ≤ 0 ∧ 0 ≤ max start stop) →
        Range.make_spaced Spacing.log start stop n = .error RangeError.invalidGridDef
        ∧ Range.make_spaced Spacing.symlog start stop n = .error RangeError.invalidGridDef)
    ∧ (0 < start → 0 < stop →
        Range.make_spaced Spacing.log start stop n
          = .ok ((linspace (Real.log start) (Real.log stop) n).map Real.exp)
        ∧ Range.make_spaced Spacing.symlog start stop n
          = .ok ((((linspace (Real.log start) (Real.log stop) n).map Real.exp).map
                (fun x => -x)).reverse
              ++ (linspace (Real.log start) (Real.log stop) n).map Real.exp)) := by
  constructor
  · rintro ⟨hmin, hmax⟩
    have h1 : ¬(0 < start ∧ 0 < stop) := by
      rintro ⟨hs, ht⟩
      have := lt_min hs ht
      linarith
    have h2 : ¬(start < 0 ∧ stop < 0) := by
      rintro ⟨hs, ht⟩
      have := max_lt hs ht
      linarith
    constructor
    · unfold Range.make_spaced
      rw [if_neg (by decide : ¬(Spacing.log = Spacing.lin)), if_neg h1, if_neg h2]
    · unfold Range.make_spaced
      rw [if_neg (by decide : ¬(Spacing.symlog = Spacing.lin)), if_neg h1, if_neg h2]
  · intro hs ht
    constructor
    · unfold Range.make_spaced
      rw [if_neg (by decide : ¬(Spacing.log = Spacing.lin)), if_pos ⟨hs, ht⟩]
      dsimp only
      rw [if_neg (by decide : ¬(Spacing.log = Spacing.symlog))]
    · unfold Range.make_spaced
      rw [if_neg (by decide : ¬(Spacing.symlog = Spacing.lin)), if_pos ⟨hs, ht⟩]
      dsimp only
      rw [if_pos rfl]

/-- C7 witness: concrete instances — a zero-crossing range `[-1, 1]` fails,
and the positive range `[1, 2]` with `n = 2` produces the log-spaced (and
mirrored) values. -/
theorem range_make_log_spec_witness :
    (Range.make_spaced Spacing.log (-1) 1 2 = .error RangeError.invalidGridDef
      ∧ Range.make_spaced Spacing.symlog (-1) 1 2 = .error RangeError.invalidGridDef)
    ∧ (Range.make_spaced Spacing.log 1 2 2
        = .ok ((linspace (Real.log 1) (Real.log 2) 2).map Real.exp)
      ∧ Range.make_spaced Spacing.symlog 1 2 2
        = .ok ((((linspace (Real.log 1) (Real.log 2) 2).map Real.exp).map
              (fun x => -x)).reverse
            ++ (linspace (Real.log 1) (Real.log 2) 2).map Real.exp)) :=
  ⟨(range_make_log_spec (-1) 1 2).1 ⟨by norm_num, by norm_num⟩,
   (range_make_log_spec 1 2 2).2 one_pos two_pos⟩

/-! ### Claim C5 -/

/-- C5 (code evaluation at the failing input): the claim says the engine
clips whenever the target specifies both `tmin` and `tmax`, including
`tmin = 0.0`.  Because the code tests `if target.tmin and target.tmax is
not None:` and `0.0` is falsy in Python, a target with `tmin = 0.0`,
`tmax = 10.0` is NOT clipped (both `itmin` and `nsamples` stay `None`),
while for any truthy `tmin` (e.g. `1.0`) the claimed
`(floor(tmin*f), ceil((tmax-tmin)*f))` is produced. -/
theorem base_seismogram_window_zero_tmin_bug :
    base_seismogram_window (some 0) (some 10) 1 = none
    ∧ base_seismogram_window (some 1) (some 10) 1 = some (1, 9) := by
  constructor
  · unfold base_seismogram_window
    rw [if_neg]
    simp
  · unfold base_seismogram_window
    rw [if_pos (by simp)]
    norm_num

/-! ### Claim C8 -/

theorem scan_stores_error_of_mapped {I D : Type*} [DecidableEq I] [DecidableEq D] :
    ∀ (l : List (D × I)) (m : List (I × D)) (i0 : I) (d d2 : D),
      alookup i0 m = some d → (d2, i0) ∈ l → d2 ≠ d →
      scan_stores l m = .error EngineError.duplicateStoreId
  | [], _, _, _, _, _, hmem, _ => absurd hmem (by simp)
  | (dir, sid) :: rest, m, i0, d, d2, hm, hmem, hne => by
    unfold scan_stores
    by_cases hid : sid = i0
    · subst hid
      simp only [hm]
      rcases List.mem_cons.1 hmem with hhead | hrest
      · obtain ⟨hd2, _⟩ := Prod.mk.inj hhead
        rw [if_neg (by rw [← hd2]; exact fun h => hne h)]
      · by_cases hdd : dir = d
        · rw [if_pos hdd]
          exact scan_stores_error_of_mapped rest m sid d d2 hm hrest hne
        · rw [if_neg hdd]
    · have hrest : (d2, i0) ∈ rest := by
        rcases List.mem_cons.1 hmem with hhead | hr
        · obtain ⟨_, hi⟩ := Prod.mk.inj hhead
          exact absurd hi.symm hid
        · exact hr
      cases hl : alookup sid m with
      | none =>
        simp only [hl]
        exact scan_stores_error_of_mapped rest ((sid, dir) :: m) i0 d d2
          (by unfold alookup; rw [if_neg hid]; exact hm) hrest hne
      | some dd =>
        simp only [hl]
        by_cases hdd : dir = dd
        · rw [if_pos hdd]
          exact scan_stores_error_of_mapped rest m i0 d d2 hm hrest hne
        · rw [if_neg hdd]

theorem scan_stores_duplicate {I D : Type*} [DecidableEq I] [DecidableEq D] :
    ∀ (l : List (D × I)) (m : List (I × D)) (i0 : I) (d1 d2 : D),
      (d1, i0) ∈ l → (d2, i0) ∈ l → d1 ≠ d2 →
      scan_stores l m = .error EngineError.duplicateStoreId
  | [], _, _, _, _, h1, _, _ => absurd h1 (by simp)
  | (dir, sid) :: rest, m, i0, d1, d2, h1, h2, hne => by
    unfold scan_stores
    rcases List.mem_cons.1 h1 with hh1 | hr1
    · obtain ⟨hd1, hi⟩ := Prod.mk.inj hh1.symm
      subst hd1
      subst hi
      have hr2 : (d2, sid) ∈ rest := by
        rcases List.mem_cons.1 h2 with hh2 | hr
        · obtain ⟨hd2, _⟩ := Prod.mk.inj hh2
          exact absurd hd2.symm hne
        · exact hr
      cases hl : alookup sid m with
      | none =>
        simp only [hl]
        exact scan_stores_error_of_mapped rest ((sid, dir) :: m) sid dir d2
          (by unfold alookup; rw [if_pos rfl]) hr2 (fun h => hne h.symm)
      | some dd =>
        simp only [hl]
        by_cases hdd : dir = dd
        · rw [if_pos hdd]
          exact scan_stores_error_of_mapped rest m sid dd d2
            hl hr2 (by rw [← hdd]; exact fun h => hne h.symm)
        · rw [if_neg hdd]
    · rcases List.mem_cons.1 h2 with hh2 | hr2
      · obtain ⟨hd2, hi⟩ := Prod.mk.inj hh2.symm
        subst hd2
        subst hi
        cases hl : alookup sid m with
        | none =>
          simp only [hl]
          exact scan_stores_error_of_mapped rest ((sid, dir) :: m) sid dir d1
            (by unfold alookup; rw [if_pos rfl]) hr1 hne
        | some dd =>
          simp only [hl]
          by_cases hdd : dir = dd
          · rw [if_pos hdd]
            exact scan_stores_error_of_mapped rest m sid dd d1
              hl hr1 (by rw [← hdd]; exact hne)
          · rw [if_neg hdd]
      · cases hl : alookup sid m with
        | none =>
          simp only [hl]
          exact scan_stores_duplicate rest ((sid, dir) :: m) i0 d1 d2 hr1 hr2 hne
        | some dd =>
          simp only [hl]
          by_cases hdd : dir = dd
          · rw [if_pos hdd]
            exact scan_stores_duplicate rest m i0 d1 d2 hr1 hr2 hne
          · rw [if_neg hdd]

/-- C8: for an engine whose search path (`iter_store_dirs` order:
superdir entries then explicit store dirs, abstracted as `entries`)
contains two distinct store directories sharing one store id, looking up
any id on a fresh engine (`_id_to_store_dir = {}`, so every id is
uncached) raises `DuplicateStoreId` — a hard error at lookup time, raised
during `_scan_stores` regardless of which id was requested. -/
theorem get_store_dir_duplicate {I D : Type*} [DecidableEq I] [DecidableEq D]
    (entries : List (D × I)) (d1 d2 : D) (i0 q : I)
    (h1 : (d1, i0) ∈ entries) (h2 : (d2, i0) ∈ entries) (hne : d1 ≠ d2) :
    get_store_dir entries [] q = .error EngineError.duplicateStoreId := by
  unfold get_store_dir
  have ha : alookup q ([] : List (I × D)) = none := rfl
  simp only [ha]
  rw [scan_stores_duplicate entries [] i0 d1 d2 h1 h2 hne]

/-- C8 witness: a search path with directories `10` and `11` both holding
store id `0`; looking up id `5` on a fresh engine errors with
`DuplicateStoreId`. -/
theorem get_store_dir_duplicate_witness :
    get_store_dir [(10, 0), (11, 0)] ([] : List (ℕ × ℕ)) 5
      = .error EngineError.duplicateStoreId :=
  get_store_dir_duplicate [(10, 0), (11, 0)] 10 11 0 5 (by decide) (by decide)
    (by decide)

/-! ### Claim C9 -/

theorem char_sextet_sextet_char : ∀ x, x < 64 → char_sextet (sextet_char x) = x := by
  decide

theorem sextet_char_ne_pad : ∀ x, x < 64 → sextet_char x ≠ '=' := by
  decide

theorem b64_roundtrip : ∀ (bs : List ℕ), (∀ b ∈ bs, b < 256) →
    b64_decode (b64_encode bs) = bs
  | [], _ => rfl
  | [b1], h => by
    have hb1 : b1 < 256 := h b1 (by simp)
    unfold b64_encode b64_decode
    rw [if_pos rfl, if_pos rfl]
    rw [char_sextet_sextet_char _ (by omega), char_sextet_sextet_char _ (by omega)]
    simp only [List.cons.injEq, and_true]
    omega
  | [b1, b2], h => by
    have hb1 : b1 < 256 := h b1 (by simp)
    have hb2 : b2 < 256 := h b2 (by simp)
    unfold b64_encode b64_decode
    rw [if_pos rfl, if_neg (sextet_char_ne_pad _ (by omega))]
    rw [char_sextet_sextet_char _ (by omega), char_sextet_sextet_char _ (by omega),
      char_sextet_sextet_char _ (by omega)]
    simp only [List.cons.injEq, and_true]
    omega
  | b1 :: b2 :: b3 :: b4 :: rest, h => by
    have hb1 : b1 < 256 := h b1 (by simp)
    have hb2 : b2 < 256 := h b2 (by simp)
    have hb3 : b3 < 256 := h b3 (by simp)
    unfold b64_encode b64_decode
    rw [if_neg (sextet_char_ne_pad _ (by omega))]
    rw [char_sextet_sextet_char _ (by omega), char_sextet_sextet_char _ (by omega),
      char_sextet_sextet_char _ (by omega), char_sextet_sextet_char _ (by omega)]
    rw [b64_roundtrip (b4 :: rest) (fun b hb => h b (by simp at hb ⊢; tauto))]
    simp only [List.cons.injEq, and_true]
    omega
  | [b1, b2, b3], h => by
    have hb1 : b1 < 256 := h b1 (by simp)
    have hb2 : b2 < 256 := h b2 (by simp)
    have hb3 : b3 < 256 := h b3 (by simp)
    unfold b64_encode b64_decode
    rw [if_neg (sextet_char_ne_pad _ (by omega))]
    rw [char_sextet_sextet_char _ (by omega), char_sextet_sextet_char _ (by omega),
      char_sextet_sextet_char _ (by omega), char_sextet_sextet_char _ (by omega)]
    rw [show b64_decode (b64_encode []) = [] from rfl]
    simp only [List.cons.injEq, and_true]
    omega

theorem words_to_bytes_lt (ws : List ℕ) : ∀ b ∈ words_to_bytes ws, b < 256 := by
  intro b hb
  unfold words_to_bytes at hb
  rw [List.mem_flatMap] at hb
  obtain ⟨w, _, hbw⟩ := hb
  unfold word_to_bytes at hbw
  simp only [List.mem_cons, List.not_mem_nil, or_false] at hbw
  rcases hbw with h | h | h | h <;> omega

theorem words_bytes_roundtrip : ∀ (ws : List ℕ), (∀ w ∈ ws, w < 2 ^ 32) →
    bytes_to_words (words_to_bytes ws) = ws
  | [], _ => rfl
  | w :: rest, h => by
    have hw : w < 2 ^ 32 := h w (by simp)
    have hc : words_to_bytes (w :: rest)
        = w % 256 :: w / 256 % 256 :: w / 65536 % 256 :: w / 16777216 % 256
          :: words_to_bytes rest := rfl
    rw [hc]
    unfold bytes_to_words
    rw [words_bytes_roundtrip rest (fun x hx => h x (by simp [hx]))]
    simp only [List.cons.injEq, and_true]
    omega

/-- C9: serializing the `data` field of a `SeismosizerTrace` produces the
base64 encoding of the concatenated little-endian float32 words, and
deserializing that payload recovers the original float32 samples
element-for-element. -/
theorem seismosizer_trace_data_roundtrip (samples : List ℕ)
    (h : ∀ w ∈ samples, w < 2 ^ 32) :
    seismosizer_trace_data_regularize (seismosizer_trace_data_to_save samples)
      = samples := by
  unfold seismosizer_trace_data_to_save seismosizer_trace_data_regularize
  rw [b64_roundtrip _ (words_to_bytes_lt samples), words_bytes_roundtrip samples h]

/-- C9 witness: round-trip of the samples `0.0f`, `1.0f`, `-1.0f`
(bit patterns `0`, `1065353216`, `3212836864`). -/
theorem seismosizer_trace_data_roundtrip_witness :
    seismosizer_trace_data_regularize
      (seismosizer_trace_data_to_save [0, 1065353216, 3212836864])
      = [0, 1065353216, 3212836864] :=
  seismosizer_trace_data_roundtrip [0, 1065353216, 3212836864] (by decide)

/-! ### C6: shape and content of the reassembled result grid -/

theorem applyResults_cons {R : Type*} (g : List (List (Option R))) (c : ℕ × ℕ × R)
    (cs : List (ℕ × ℕ × R)) :
    applyResults g (c :: cs) = applyResults (setCell g c.1 c.2.1 c.2.2) cs := rfl

theorem setCell_length {R : Type*} (g : List (List (Option R))) (i j : ℕ) (r : R) :
    (setCell g i j r).length = g.length := by
  simp [setCell]

theorem setCell_getD_ne_row {R : Type*} (g : List (List (Option R))) {i i' : ℕ}
    (j : ℕ) (r : R) (h : i ≠ i') :
    (setCell g i j r).getD i' [] = g.getD i' [] := by
  simp [setCell, List.getD_eq_getElem?_getD, List.getElem?_set_ne h]

theorem setCell_getD_row {R : Type*} (g : List (List (Option R))) {i : ℕ}
    (j : ℕ) (r : R) (h : i < g.length) :
    (setCell g i j r).getD i [] = (g.getD i []).set j (some r) := by
  simp [setCell, List.getD_eq_getElem?_getD, List.getElem?_set_self h]

theorem setCell_oob {R : Type*} (g : List (List (Option R))) {i : ℕ}
    (j : ℕ) (r : R) (h : g.length ≤ i) : setCell g i j r = g := by
  simp [setCell, List.set_eq_of_length_le h]

theorem setCell_row_length {R : Type*} (g : List (List (Option R))) (i j : ℕ) (r : R)
    (i' : ℕ) : ((setCell g i j r).getD i' []).length = (g.getD i' []).length := by
  rcases eq_or_ne i i' with rfl | hne
  · rcases lt_or_ge i g.length with h | h
    · rw [setCell_getD_row g j r h, List.length_set]
    · rw [setCell_oob g j r h]
  · rw [setCell_getD_ne_row g j r hne]

theorem setCell_getD_self {R : Type*} (g : List (List (Option R))) {i j : ℕ} (r : R)
    (hi : i < g.length) (hj : j < (g.getD i []).length) :
    ((setCell g i j r).getD i []).getD j none = some r := by
  rw [setCell_getD_row g j r hi, List.getD_eq_getElem?_getD, List.getElem?_set_self hj]
  rfl

theorem setCell_getD_other {R : Type*} (g : List (List (Option R))) {i0 j0 i j : ℕ}
    (r : R) (h : ¬(i0 = i ∧ j0 = j)) :
    ((setCell g i0 j0 r).getD i []).getD j none = (g.getD i []).getD j none := by
  rcases eq_or_ne i0 i with rfl | hne
  · have hj : j0 ≠ j := fun hj => h ⟨rfl, hj⟩
    rcases lt_or_ge i0 g.length with hi0 | hi0
    · rw [setCell_getD_row g j0 r hi0, List.getD_eq_getElem?_getD,
        List.getElem?_set_ne hj, List.getD_eq_getElem?_getD,
        List.getD_eq_getElem?_getD]
    · rw [setCell_oob g j0 r hi0]
  · rw [setCell_getD_ne_row g j0 r hne]

theorem applyResults_length {R : Type*} (cells : List (ℕ × ℕ × R)) :
    ∀ g : List (List (Option R)), (applyResults g cells).length = g.length := by
  induction cells with
  | nil => intro g; rfl
  | cons c cs ih =>
    intro g
    rw [applyResults_cons, ih, setCell_length]

theorem applyResults_row_length {R : Type*} (cells : List (ℕ × ℕ × R)) :
    ∀ (g : List (List (Option R))) (i : ℕ),
      ((applyResults g cells).getD i []).length = (g.getD i []).length := by
  induction cells with
  | nil => intro g i; rfl
  | cons c cs ih =>
    intro g i
    rw [applyResults_cons, ih, setCell_row_length]

theorem applyResults_getD {R : Type*} (v : ℕ → ℕ → R) (cells : List (ℕ × ℕ × R)) :
    ∀ g : List (List (Option R)),
      (∀ c ∈ cells, c.1 < g.length ∧ c.2.1 < (g.getD c.1 []).length ∧
        c.2.2 = v c.1 c.2.1) →
      ∀ i j : ℕ,
        ((applyResults g cells).getD i []).getD j none =
          if (i, j) ∈ cells.map (fun c => (c.1, c.2.1)) then some (v i j)
          else (g.getD i []).getD j none := by
  induction cells with
  | nil =>
    intro g _ i j
    simp [applyResults]
  | cons c cs ih =>
    intro g hg i j
    have hc := hg c (List.mem_cons_self c cs)
    have hcs : ∀ c' ∈ cs, c'.1 < (setCell g c.1 c.2.1 c.2.2).length ∧
        c'.2.1 < ((setCell g c.1 c.2.1 c.2.2).getD c'.1 []).length ∧
        c'.2.2 = v c'.1 c'.2.1 := by
      intro c' hc'
      have h := hg c' (List.mem_cons_of_mem c hc')
      rw [setCell_length, setCell_row_length]
      exact h
    rw [applyResults_cons, ih _ hcs i j]
    by_cases hmem : (i, j) ∈ cs.map (fun c => (c.1, c.2.1))
    · rw [if_pos hmem, if_pos (by rw [List.map_cons]; exact List.mem_cons_of_mem _ hmem)]
    · rw [if_neg hmem]
      by_cases hhead : c.1 = i ∧ c.2.1 = j
      · obtain ⟨h1, h2⟩ := hhead
        subst h1
        subst h2
        rw [setCell_getD_self g c.2.2 hc.1 hc.2.1, hc.2.2,
          if_pos (by rw [List.map_cons]; exact List.mem_cons_self _ _)]
      · rw [setCell_getD_other g c.2.2 hhead,
          if_neg (by
            simp only [List.map_cons, List.mem_cons, Prod.mk.injEq, not_or]
            exact ⟨fun h => hhead ⟨h.1.symm, h.2.symm⟩, hmem⟩)]

theorem getD_mem {α : Type*} [Inhabited α] (xs : List α) {i : ℕ} (hi : i < xs.length) :
    xs.getD i default ∈ xs := by
  rw [List.getD_eq_getElem?_getD, List.getElem?_eq_getElem hi]
  exact List.getElem_mem hi

theorem key_groups_mem_lt {α K : Type*} [DecidableEq K] [Inhabited α]
    {key : α → K} {xs : List α} {g : List ℕ} (hg : g ∈ key_groups key xs)
    {i : ℕ} (hi : i ∈ g) : i < xs.length := by
  obtain ⟨k, hk, hfk⟩ := List.mem_map.1 hg
  rw [← hfk] at hi
  exact List.mem_range.1 (List.mem_filter.1 hi).1

theorem key_groups_mem_key {α K : Type*} [DecidableEq K] [Inhabited α]
    {key : α → K} {xs : List α} {g : List ℕ} (hg : g ∈ key_groups key xs)
    {i i' : ℕ} (hi : i ∈ g) (hi' : i' ∈ g) :
    key (xs.getD i default) = key (xs.getD i' default) := by
  obtain ⟨k, hk, hfk⟩ := List.mem_map.1 hg
  rw [← hfk] at hi hi'
  simp only [List.mem_filter, decide_eq_true_eq] at hi hi'
  rw [hi.2, hi'.2]

theorem key_groups_covers {α K : Type*} [DecidableEq K] [Inhabited α]
    (key : α → K) (xs : List α) {i : ℕ} (hi : i < xs.length) :
    ∃ g ∈ key_groups key xs, i ∈ g := by
  refine ⟨(List.range xs.length).filter
      (fun i' => key (xs.getD i' default) = key (xs.getD i default)), ?_, ?_⟩
  · exact List.mem_map.2 ⟨key (xs.getD i default),
      List.mem_dedup.2 (List.mem_map.2 ⟨xs.getD i default, getD_mem xs hi, rfl⟩), rfl⟩
  · exact List.mem_filter.2 ⟨List.mem_range.2 hi, by simp⟩

theorem process_cells_good {S T B K K2 R : Type*} [DecidableEq K] [DecidableEq K2]
    [Inhabited S] [Inhabited T]
    (ks : S → K) (kt : T → K2) (base : S → T → B) (post : B → S → T → R)
    (sources : List S) (targets : List T)
    (hbase : ∀ s s' t t', ks s = ks s' → kt t = kt t' → base s t = base s' t')
    (order : List (List ℕ × List ℕ))
    (horder : ∀ w ∈ order, w ∈ subrequest_work ks kt sources targets) :
    ∀ c ∈ order.flatMap (process_subrequest base post sources targets),
      c.1 < sources.length ∧ c.2.1 < targets.length ∧
      c.2.2 = post (base (sources.getD c.1 default) (targets.getD c.2.1 default))
        (sources.getD c.1 default) (targets.getD c.2.1 default) := by
  intro c hc
  obtain ⟨w, hw, hcw⟩ := List.mem_flatMap.1 hc
  obtain ⟨gs, hgs, hwgt⟩ := List.mem_flatMap.1 (horder w hw)
  obtain ⟨gt, hgt, hwt⟩ := List.mem_map.1 hwgt
  subst hwt
  simp only [process_subrequest, List.mem_flatMap, List.mem_map] at hcw
  obtain ⟨i, hi, j, hj, hcij⟩ := hcw
  subst hcij
  refine ⟨key_groups_mem_lt hgs hi, key_groups_mem_lt hgt hj, ?_⟩
  cases gs with
  | nil => cases hi
  | cons a rest =>
    cases gt with
    | nil => cases hj
    | cons b brest =>
      have hhs : ((a :: rest).map (fun i => sources.getD i default)).headI
          = sources.getD a default := rfl
      have hht : ((b :: brest).map (fun j => targets.getD j default)).headI
          = targets.getD b default := rfl
      rw [hhs, hht,
        hbase (sources.getD a default) (sources.getD i default)
          (targets.getD b default) (targets.getD j default)
          (key_groups_mem_key hgs (List.mem_cons_self a rest) hi)
          (key_groups_mem_key hgt (List.mem_cons_self b brest) hj)]

theorem process_cells_cover {S T B K K2 R : Type*} [DecidableEq K] [DecidableEq K2]
    [Inhabited S] [Inhabited T]
    (ks : S → K) (kt : T → K2) (base : S → T → B) (post : B → S → T → R)
    (sources : List S) (targets : List T)
    (order : List (List ℕ × List ℕ))
    (horder : ∀ w ∈ subrequest_work ks kt sources targets, w ∈ order)
    {i j : ℕ} (hi : i < sources.length) (hj : j < targets.length) :
    (i, j) ∈ (order.flatMap (process_subrequest base post sources targets)).map
      (fun c => (c.1, c.2.1)) := by
  obtain ⟨gs, hgs, higs⟩ := key_groups_covers ks sources hi
  obtain ⟨gt, hgt, hjgt⟩ := key_groups_covers kt targets hj
  have hwork : (gs, gt) ∈ subrequest_work ks kt sources targets :=
    List.mem_flatMap.2 ⟨gs, hgs, List.mem_map.2 ⟨gt, hgt, rfl⟩⟩
  refine List.mem_map.2 ⟨(i, j,
    post (base ((gs.map (fun i => sources.getD i default)).headI)
               ((gt.map (fun j => targets.getD j default)).headI))
         (sources.getD i default) (targets.getD j default)), ?_, rfl⟩
  refine List.mem_flatMap.2 ⟨(gs, gt), horder _ hwork, ?_⟩
  simp only [process_subrequest, List.mem_flatMap, List.mem_map]
  exact ⟨i, higs, j, hjgt, rfl⟩

/-- C6: for every request whose sources and targets are pairwise distinct,
provided the base seismogram depends only on the base keys used for
grouping, the returned result grid has exactly `len(sources)` rows and
`len(targets)` columns, and cell `(i, j)` holds the post-processed result
for `sources[i]` and `targets[j]` in the caller's original order — for
every completion order of the subrequests (any permutation of the work
list) and every grouping key functions `ks`, `kt`. -/
theorem process_results_spec {S T B K K2 R : Type*} [DecidableEq K] [DecidableEq K2]
    [Inhabited S] [Inhabited T]
    (ks : S → K) (kt : T → K2) (base : S → T → B) (post : B → S → T → R)
    (sources : List S) (targets : List T)
    (_hs : sources.Nodup) (_ht : targets.Nodup)
    (hbase : ∀ s s' t t', ks s = ks s' → kt t = kt t' → base s t = base s' t')
    (order : List (List ℕ × List ℕ))
    (horder : order.Perm (subrequest_work ks kt sources targets)) :
    (process_results base post sources targets order).length = sources.length ∧
    ∀ i j : ℕ, i < sources.length → j < targets.length →
      ((process_results base post sources targets order).getD i []).length
        = targets.length ∧
      ((process_results base post sources targets order).getD i []).getD j none =
        some (post (base (sources.getD i default) (targets.getD j default))
          (sources.getD i default) (targets.getD j default)) := by
  have hgood := process_cells_good ks kt base post sources targets hbase order
    (fun w hw => horder.mem_iff.1 hw)
  unfold process_results
  constructor
  · rw [applyResults_length]
    simp [emptyGrid]
  · intro i j hi hj
    have hrow0 : (emptyGrid R sources.length targets.length).getD i []
        = List.replicate targets.length none := by
      simp [emptyGrid, List.getD_eq_getElem?_getD, List.getElem?_replicate, hi]
    constructor
    · rw [applyResults_row_length, hrow0, List.length_replicate]
    · rw [applyResults_getD
        (fun i j => post (base (sources.getD i default) (targets.getD j default))
          (sources.getD i default) (targets.getD j default))
        (order.flatMap (process_subrequest base post sources targets))
        (emptyGrid R sources.length targets.length)
        (fun c hc => by
          have h := hgood c hc
          refine ⟨?_, ?_, h.2.2⟩
          · simpa [emptyGrid] using h.1
          · have hrowc : (emptyGrid R sources.length targets.length).getD c.1 []
                = List.replicate targets.length none := by
              simp [emptyGrid, List.getD_eq_getElem?_getD, List.getElem?_replicate, h.1]
            rw [hrowc, List.length_replicate]
            exact h.2.1)
        i j,
        if_pos (process_cells_cover ks kt base post sources targets order
          (fun w hw => horder.mem_iff.2 hw) hi hj)]

/-- C6 witness: two sources `[3, 4]` in singleton groups (key = identity)
and two targets `[5, 6]` in one shared group (constant key), processed with
the two work items in reversed order: the grid has 2 rows of 2 columns and
cell `(1, 0)` holds the result for source `4` and target `5`. -/
theorem process_results_spec_witness :
    ([3, 4] : List ℕ).Nodup ∧ ([5, 6] : List ℕ).Nodup ∧
    ([([1], [0, 1]), ([0], [0, 1])] : List (List ℕ × List ℕ)).Perm
      (subrequest_work (fun s : ℕ => s) (fun _ : ℕ => (0 : ℕ)) [3, 4] [5, 6]) ∧
    ((process_results (fun s _ : ℕ => s * 2) (fun b s t : ℕ => b + 10 * s + 100 * t)
        [3, 4] [5, 6] [([1], [0, 1]), ([0], [0, 1])]).getD 1 []).getD 0 none
      = some 548 := by
  refine ⟨by decide, by decide, by decide, ?_⟩
  have h := (process_results_spec (fun s : ℕ => s) (fun _ : ℕ => (0 : ℕ))
    (fun s _ : ℕ => s * 2) (fun b s t : ℕ => b + 10 * s + 100 * t)
    [3, 4] [5, 6] (by decide) (by decide)
    (fun s s' t t' hss _ => by simp only at hss; rw [hss])
    [([1], [0, 1]), ([0], [0, 1])] (by decide)).2 1 0 (by decide) (by decide)
  simpa using h.2

end Pyrocko
